import Mathlib

/-!
# Circular doubly-linked list with a sentinel (`list.c`, `list.h`)

A shallow embedding of the list library.  The C heap is an explicit value: a
total map from addresses to `struct list` cells together with the first
address that has never been handed out by the allocator.  Every C function is
a Lean function that takes the heap and returns the C return value together
with the heap it leaves behind.  Loops that follow `next` or `prev` links are
recursions on an explicit fuel argument and answer `none` when the fuel runs
out; the theorems show that a fuel above the number of live nodes is enough.
-/

set_option autoImplicit false

namespace CList

/-! ## Data model -/

/-- An address of a `struct list` cell. -/
abbrev Ptr := Nat

/-- The null pointer. It is never handed out by the allocator. -/
abbrev NULL : Ptr := 0

/-- The bytes of a payload buffer. -/
abbrev Bytes := List Nat

/-- A `void *` payload pointer: `none` is the null pointer, `some bs` points
to a buffer that holds the bytes `bs`. -/
abbrev Data := Option Bytes

/-- The cell `struct list` of `list.h`. -/
structure Node where
  next : Ptr
  prev : Ptr
  size : Nat
  data : Data
deriving DecidableEq, Repr

/-- The comparison operators `enum list_comparison_operator` of `list.h`. -/
inductive list_comparison_operator where
  | LIST_CMP_LT
  | LIST_CMP_EQ
  | LIST_CMP_LE
  | LIST_CMP_GT
  | LIST_CMP_NE
  | LIST_CMP_GE
deriving DecidableEq, Repr

open list_comparison_operator

/-- A comparator `int (*cmp)(const void *, const void *)`: it receives the two
payload pointers as they are, null included. -/
abbrev Cmp := Data → Data → Int

/-- The heap: the contents of every cell and the allocation frontier `brk`
(addresses at or above `brk` have never been allocated). -/
structure Heap where
  node : Ptr → Node
  brk : Ptr

/-- The cell that `calloc` returns: all fields zero. -/
def zeroNode : Node := ⟨NULL, NULL, 0, none⟩

/-- The heap before any allocation; address `0` is reserved for `NULL`. -/
def Heap.init : Heap := ⟨fun _ => zeroNode, 1⟩

/-- The assignment `p->next = v`. -/
def Heap.setNext (h : Heap) (p v : Ptr) : Heap :=
  { h with node := fun q => if q = p then { h.node q with next := v } else h.node q }

/-- The assignment `p->prev = v`. -/
def Heap.setPrev (h : Heap) (p v : Ptr) : Heap :=
  { h with node := fun q => if q = p then { h.node q with prev := v } else h.node q }

/-- The assignment `p->size = v`. -/
def Heap.setSize (h : Heap) (p : Ptr) (v : Nat) : Heap :=
  { h with node := fun q => if q = p then { h.node q with size := v } else h.node q }

/-- The assignment `p->data = v`. -/
def Heap.setData (h : Heap) (p : Ptr) (v : Data) : Heap :=
  { h with node := fun q => if q = p then { h.node q with data := v } else h.node q }

/-- The call `calloc(1, sizeof(struct list))`.  The flag says whether the
allocator succeeds; on success the cell at the frontier is zeroed and
returned, on failure the result is `NULL` and the heap is untouched. -/
def calloc (h : Heap) (ok : Bool) : Ptr × Heap :=
  if ok then
    (h.brk, { node := fun q => if q = h.brk then zeroNode else h.node q, brk := h.brk + 1 })
  else (NULL, h)

/-- The call `free(p)`: addresses are never reused, so releasing a cell
leaves the heap map as it is. -/
def free (h : Heap) (_p : Ptr) : Heap := h

/-! ## The operations of `list.c` -/

/-- The function `create_empty_list` (list.c 11-21). -/
def create_empty_list (h : Heap) (ok : Bool) : Ptr × Heap :=
  let (head, h1) := calloc h ok
  if head = NULL then (NULL, h1)
  else
    let h2 := h1.setPrev head head
    let h3 := h2.setNext head head
    let h4 := h3.setData head none
    (head, h4)

/-- The function `push_into_list` (list.c 28-48).  The flags `node_ok` and
`buf_ok` are the outcomes of the `calloc` of the node and of the `malloc` of
the payload buffer; `memcpy` of `size` bytes stores the first `size` bytes
found at `data`. -/
def push_into_list (h : Heap) (head : Ptr) (size : Nat) (data : Bytes)
    (node_ok buf_ok : Bool) : Ptr × Heap :=
  let (adding, h1) := calloc h node_ok
  if adding = NULL then (NULL, h1)
  else if buf_ok = false then (NULL, free h1 adding)
  else
    let h2 := h1.setData adding (some (data.take size))
    let h3 := h2.setSize adding size
    let h4 := h3.setNext adding head
    let h5 := h4.setPrev adding (h4.node head).prev
    let h6 := h5.setNext (h5.node head).prev adding
    let h7 := h6.setPrev head adding
    (adding, h7)

/-- The function `unshift_into_list` (list.c 55-75). -/
def unshift_into_list (h : Heap) (head : Ptr) (size : Nat) (data : Bytes)
    (node_ok buf_ok : Bool) : Ptr × Heap :=
  let (adding, h1) := calloc h node_ok
  if adding = NULL then (NULL, h1)
  else if buf_ok = false then (NULL, free h1 adding)
  else
    let h2 := h1.setData adding (some (data.take size))
    let h3 := h2.setSize adding size
    let h4 := h3.setNext adding (h3.node head).next
    let h5 := h4.setPrev adding head
    let h6 := h5.setPrev (h5.node head).next adding
    let h7 := h6.setNext head adding
    (adding, h7)

/-- The function `pop_from_list` (list.c 77-87). -/
def pop_from_list (h : Heap) (head : Ptr) : Ptr × Heap :=
  if (h.node head).prev = head then (NULL, h)
  else
    let popped := (h.node head).prev
    let h1 := h.setPrev head (h.node popped).prev
    let h2 := h1.setNext (h1.node popped).prev head
    (popped, h2)

/-- The loop of `get_min_from_part_of_list` (list.c 133-138), entered with the
running minimum `min` and the cursor `current`. -/
def get_min_loop (h : Heap) (end_ : Ptr) (cmp : Cmp) : Nat → Ptr → Ptr → Option Ptr
  | 0, _, _ => none
  | fuel + 1, min, current =>
    if current = end_ then some min
    else
      let min1 := if cmp (h.node current).data (h.node min).data < 0 then current else min
      get_min_loop h end_ cmp fuel min1 (h.node current).next

/-- The function `get_min_from_part_of_list` (list.c 127-140). -/
def get_min_from_part_of_list (fuel : Nat) (h : Heap) (start end_ : Ptr) (cmp : Cmp) :
    Option Ptr :=
  get_min_loop h end_ cmp fuel start (h.node start).next

/-- The function `get_min_from_list` (list.c 146-150). -/
def get_min_from_list (fuel : Nat) (h : Heap) (head : Ptr) (cmp : Cmp) : Option Ptr :=
  get_min_from_part_of_list fuel h (h.node head).next (h.node head).prev cmp

/-- The loop of `get_max_from_part_of_list` (list.c 163-168), entered with the
running maximum `max` and the cursor `current`. -/
def get_max_loop (h : Heap) (start : Ptr) (cmp : Cmp) : Nat → Ptr → Ptr → Option Ptr
  | 0, _, _ => none
  | fuel + 1, max, current =>
    if current = start then some max
    else
      let max1 := if cmp (h.node current).data (h.node max).data > 0 then current else max
      get_max_loop h start cmp fuel max1 (h.node current).prev

/-- The function `get_max_from_part_of_list` (list.c 157-170). -/
def get_max_from_part_of_list (fuel : Nat) (h : Heap) (start end_ : Ptr) (cmp : Cmp) :
    Option Ptr :=
  get_max_loop h start cmp fuel start (h.node end_).prev

/-- The function `get_max_from_list` (list.c 176-180). -/
def get_max_from_list (fuel : Nat) (h : Heap) (head : Ptr) (cmp : Cmp) : Option Ptr :=
  get_max_from_part_of_list fuel h (h.node head).next (h.node head).prev cmp

/-- The loop of `remove_from_list` (list.c 189-196), entered at `current`. -/
def remove_loop (h : Heap) (head node : Ptr) : Nat → Ptr → Option (Ptr × Heap)
  | 0, _ => none
  | fuel + 1, current =>
    if current = head then some (NULL, h)
    else if current = node then
      let h1 := h.setNext (h.node current).prev (h.node current).next
      let h2 := h1.setPrev (h1.node current).next (h1.node current).prev
      some (current, h2)
    else remove_loop h head node fuel (h.node current).next

/-- The function `remove_from_list` (list.c 186-198). -/
def remove_from_list (fuel : Nat) (h : Heap) (head node : Ptr) : Option (Ptr × Heap) :=
  remove_loop h head node fuel (h.node head).next

/-- The loop of `insert_into_sorted_list` (list.c 242-245): walk `prev` links
from `current` while `current != head && cmp(data, current->data) < 0`; the
result is the cursor at which the loop stops. -/
def insert_scan (h : Heap) (head : Ptr) (data : Data) (cmp : Cmp) : Nat → Ptr → Option Ptr
  | 0, _ => none
  | fuel + 1, current =>
    if current ≠ head ∧ cmp data (h.node current).data < 0 then
      insert_scan h head data cmp fuel (h.node current).prev
    else some current

/-- The function `insert_into_sorted_list` (list.c 224-253).  After the scan
the code writes `adding->next`, `adding->prev` and `current->next->prev`; its
last statement `current = adding;` assigns the local cursor only and writes
nothing to the heap. -/
def insert_into_sorted_list (fuel : Nat) (h : Heap) (head : Ptr) (size : Nat) (data : Bytes)
    (cmp : Cmp) (node_ok buf_ok : Bool) : Option (Ptr × Heap) :=
  let (adding, h1) := calloc h node_ok
  if adding = NULL then some (NULL, h1)
  else if buf_ok = false then some (NULL, free h1 adding)
  else
    let h2 := h1.setData adding (some (data.take size))
    let h3 := h2.setSize adding size
    match insert_scan h3 head (some data) cmp fuel (h3.node head).prev with
    | none => none
    | some current =>
      let h4 := h3.setNext adding (h3.node current).next
      let h5 := h4.setPrev adding current
      let h6 := h5.setPrev (h5.node current).next adding
      some (adding, h6)

/-- The test of `find_from_list` (list.c 273-277) that decides whether the
node whose comparison gave `result` is counted under the operator `op`. -/
def find_counts (result : Int) (op : list_comparison_operator) : Bool :=
  (decide (result < 0) && (op = LIST_CMP_LT || op = LIST_CMP_LE || op = LIST_CMP_NE)) ||
  (decide (result > 0) && (op = LIST_CMP_GT || op = LIST_CMP_GE || op = LIST_CMP_NE)) ||
  (op = LIST_CMP_EQ || op = LIST_CMP_LE || op = LIST_CMP_GE)

/-- The loop of `find_from_list` (list.c 270-283), entered with the running
`counter` at the cursor `current`.  The counter is bounded by the number of
nodes visited, so it is an unbounded integer here. -/
def find_loop (h : Heap) (head : Ptr) (data : Data) (cmp : Cmp)
    (op : list_comparison_operator) (n : Int) : Nat → Int → Ptr → Option Ptr
  | 0, _, _ => none
  | fuel + 1, counter, current =>
    if current = head then some NULL
    else
      let result := cmp (h.node current).data data
      let counter1 := if find_counts result op then counter + 1 else counter
      if counter1 ≥ n then some current
      else find_loop h head data cmp op n fuel counter1 (h.node current).next

/-- The function `find_from_list` (list.c 263-285). -/
def find_from_list (fuel : Nat) (h : Heap) (head : Ptr) (data : Data) (cmp : Cmp)
    (op : list_comparison_operator) (n : Int) : Option Ptr :=
  find_loop h head data cmp op n fuel 0 (h.node head).next

/-! ## Traversals and the ring invariant -/

/-- Follow `next` links from `current` until `head` is met and collect the
nodes passed on the way. -/
def walk_next (h : Heap) (head : Ptr) : Nat → Ptr → Option (List Ptr)
  | 0, _ => none
  | fuel + 1, current =>
    if current = head then some []
    else (walk_next h head fuel (h.node current).next).map (current :: ·)

/-- Follow `prev` links from `current` until `head` is met and collect the
nodes passed on the way. -/
def walk_prev (h : Heap) (head : Ptr) : Nat → Ptr → Option (List Ptr)
  | 0, _ => none
  | fuel + 1, current =>
    if current = head then some []
    else (walk_prev h head fuel (h.node current).prev).map (current :: ·)

/-- The forward traversal: the nodes met by following `next` from the head
until the head is reached again. -/
def forward (fuel : Nat) (h : Heap) (head : Ptr) : Option (List Ptr) :=
  walk_next h head fuel (h.node head).next

/-- The backward traversal: the nodes met by following `prev` from the head
until the head is reached again. -/
def backward (fuel : Nat) (h : Heap) (head : Ptr) : Option (List Ptr) :=
  walk_prev h head fuel (h.node head).prev

/-- The payload pointers held by the nodes `ps`, in order. -/
def payloads (h : Heap) (ps : List Ptr) : List Data :=
  ps.map fun p => (h.node p).data

/-- A doubly linked segment: `next` leads from `a` through the nodes `ps` to
`b`, and `prev` leads back from `b` through the same nodes to `a`. -/
def linked (h : Heap) : Ptr → List Ptr → Ptr → Prop
  | a, [], b => (h.node a).next = b ∧ (h.node b).prev = a
  | a, p :: ps, b => ((h.node a).next = p ∧ (h.node p).prev = a) ∧ linked h p ps b

instance linked.decidable (h : Heap) : (a : Ptr) → (ps : List Ptr) → (b : Ptr) →
    Decidable (linked h a ps b)
  | a, [], b => inferInstanceAs (Decidable ((h.node a).next = b ∧ (h.node b).prev = a))
  | a, p :: ps, b =>
    have := linked.decidable h p ps b
    inferInstanceAs
      (Decidable (((h.node a).next = p ∧ (h.node p).prev = a) ∧ linked h p ps b))

/-- The ring invariant: the head and the live nodes `ps` are pairwise distinct
allocated non-null cells, `next` from the head runs through `ps` in order and
returns to the head, and `prev` runs through the same nodes in reverse. -/
def Ring (h : Heap) (head : Ptr) (ps : List Ptr) : Prop :=
  (head :: ps).Nodup ∧ (∀ p ∈ head :: ps, p ≠ NULL ∧ p < h.brk) ∧ linked h head ps head

instance Ring.decidable (h : Heap) (head : Ptr) (ps : List Ptr) : Decidable (Ring h head ps) :=
  inferInstanceAs (Decidable
    ((head :: ps).Nodup ∧ (∀ p ∈ head :: ps, p ≠ NULL ∧ p < h.brk) ∧ linked h head ps head))

/-- A well-formed list: the ring invariant holds for the live nodes `ps`, the
sentinel holds no payload and has size zero, and the live nodes hold the
payloads `xs` in order. -/
def WellFormed (h : Heap) (head : Ptr) (ps : List Ptr) (xs : List Bytes) : Prop :=
  Ring h head ps ∧ (h.node head).data = none ∧ (h.node head).size = 0 ∧
    payloads h ps = xs.map some

instance WellFormed.decidable (h : Heap) (head : Ptr) (ps : List Ptr) (xs : List Bytes) :
    Decidable (WellFormed h head ps xs) :=
  inferInstanceAs (Decidable (Ring h head ps ∧ (h.node head).data = none ∧
    (h.node head).size = 0 ∧ payloads h ps = xs.map some))

/-- A numeric three-way comparator: it compares the first byte of the two
buffers (and treats a null or empty buffer as equal to anything). -/
def cmp_byte : Cmp
  | some (x :: _), some (y :: _) => (x : Int) - (y : Int)
  | _, _ => 0

/-! ## Call sequences used to state the properties -/

/-- Insert the payloads one by one with `insert_into_sorted_list`, every
allocation succeeding and every payload passed with its own length as size. -/
def insert_all (fuel : Nat) (head : Ptr) (cmp : Cmp) : Heap → List Bytes → Option Heap
  | h, [] => some h
  | h, x :: xs =>
    match insert_into_sorted_list fuel h head x.length x cmp true true with
    | none => none
    | some r => insert_all fuel head cmp r.2 xs

/-- Push the payloads one by one with `push_into_list`, every allocation
succeeding; the result lists the returned nodes in call order. -/
def push_all (head : Ptr) : Heap → List Bytes → List Ptr × Heap
  | h, [] => ([], h)
  | h, x :: xs =>
    let r := push_into_list h head x.length x true true
    let rs := push_all head r.2 xs
    (r.1 :: rs.1, rs.2)

/-- Unshift the payloads one by one with `unshift_into_list`, every allocation
succeeding; the result lists the returned nodes in call order. -/
def unshift_all (head : Ptr) : Heap → List Bytes → List Ptr × Heap
  | h, [] => ([], h)
  | h, x :: xs =>
    let r := unshift_into_list h head x.length x true true
    let rs := unshift_all head r.2 xs
    (r.1 :: rs.1, rs.2)

/-- Call `pop_from_list` `k` times; the result lists the returned pointers in
call order. -/
def pop_n (head : Ptr) : Heap → Nat → List Ptr × Heap
  | h, 0 => ([], h)
  | h, k + 1 =>
    let r := pop_from_list h head
    let rs := pop_n head r.2 k
    (r.1 :: rs.1, rs.2)

/-- The meaning the operator names carry: whether a comparison result
`result = cmp(node.payload, key)` satisfies the relation `op`. -/
def op_holds (op : list_comparison_operator) (result : Int) : Bool :=
  match op with
  | LIST_CMP_LT => decide (result < 0)
  | LIST_CMP_EQ => decide (result = 0)
  | LIST_CMP_LE => decide (result ≤ 0)
  | LIST_CMP_GT => decide (result > 0)
  | LIST_CMP_NE => decide (result ≠ 0)
  | LIST_CMP_GE => decide (result ≥ 0)

/-- The live nodes of `ps` whose payload stands in relation `op` to `key`
under `cmp`, in traversal order. -/
def matching (h : Heap) (key : Data) (cmp : Cmp) (op : list_comparison_operator)
    (ps : List Ptr) : List Ptr :=
  ps.filter fun p => op_holds op (cmp (h.node p).data key)

/-! ## Further operations of `list.c` -/

/-- The loop of `pick_not_sorted_from_part_of_list` (list.c 99-104), entered
at `current`. -/
def pick_not_sorted_loop (h : Heap) (end_ : Ptr) (cmp : Cmp) : Nat → Ptr → Option Ptr
  | 0, _ => none
  | fuel + 1, current =>
    if current = end_ then some NULL
    else if cmp (h.node current).data (h.node (h.node current).next).data > 0 then some current
    else pick_not_sorted_loop h end_ cmp fuel (h.node current).next

/-- The function `pick_not_sorted_from_part_of_list` (list.c 94-106). -/
def pick_not_sorted_from_part_of_list (fuel : Nat) (h : Heap) (start end_ : Ptr) (cmp : Cmp) :
    Option Ptr :=
  pick_not_sorted_loop h end_ cmp fuel start

/-- The function `pick_not_sorted_from_list` (list.c 114-120). -/
def pick_not_sorted_from_list (fuel : Nat) (h : Heap) (head : Ptr) (cmp : Cmp) : Option Ptr :=
  pick_not_sorted_from_part_of_list fuel h (h.node head).next (h.node head).prev cmp

/-- A call `free_data(node->data)` of the payload destructor: the node whose
payload is handed over and the payload pointer passed. -/
abbrev DestructorCall := Ptr × Data

/-- The function `free_from_list` (list.c 205-216).  The third component of
the result lists the calls of the destructor `free_data` in the order they
are made. -/
def free_from_list (fuel : Nat) (h : Heap) (head node : Ptr) :
    Option (Ptr × Heap × List DestructorCall) :=
  match remove_from_list fuel h head node with
  | none => none
  | some (removed, h1) =>
    if removed = NULL then some (NULL, h1, [])
    else
      let calls := [(removed, (h1.node removed).data)]
      let h2 := h1.setData removed none
      let h3 := free h2 removed
      some (head, h3, calls)

/-- The loop of `free_list` (list.c 293-298), entered at `current`: it calls
the destructor on `current->data`, reads `current->prev`, releases `current`
and goes on from the node read. -/
def free_list_loop (head : Ptr) : Nat → Heap → Ptr → Option (Heap × List DestructorCall)
  | 0, _, _ => none
  | fuel + 1, h, current =>
    if current = head then some (h, [])
    else
      let call := (current, (h.node current).data)
      let two_spots_ahead := (h.node current).prev
      let h1 := free h current
      (free_list_loop head fuel h1 two_spots_ahead).map fun r => (r.1, call :: r.2)

/-- The function `free_list` (list.c 290-301).  The result is the heap left
behind and the calls of the destructor `free_data` in the order they are
made. -/
def free_list (fuel : Nat) (h : Heap) (head : Ptr) : Option (Heap × List DestructorCall) :=
  match free_list_loop head fuel h (h.node head).prev with
  | none => none
  | some (h1, calls) =>
    let h2 := h1.setPrev head NULL
    let h3 := h2.setNext head NULL
    some (free h3 head, calls)

/-! ## Comparators and the scan of the minimum and maximum loops -/

/-- A three-way comparator expresses a total preorder on the payload pointers
`ds`: swapping the arguments swaps the sign, and "not greater" is transitive. -/
def TotalPreorderOn (cmp : Cmp) (ds : List Data) : Prop :=
  (∀ a ∈ ds, ∀ b ∈ ds, (cmp a b < 0 ↔ 0 < cmp b a)) ∧
    ∀ a ∈ ds, ∀ b ∈ ds, ∀ c ∈ ds, cmp a b ≤ 0 → cmp b c ≤ 0 → cmp a c ≤ 0

instance TotalPreorderOn.decidable (cmp : Cmp) (ds : List Data) :
    Decidable (TotalPreorderOn cmp ds) :=
  inferInstanceAs (Decidable ((∀ a ∈ ds, ∀ b ∈ ds, (cmp a b < 0 ↔ 0 < cmp b a)) ∧
    ∀ a ∈ ds, ∀ b ∈ ds, ∀ c ∈ ds, cmp a b ≤ 0 → cmp b c ≤ 0 → cmp a c ≤ 0))

/-- The running candidate of the minimum and maximum loops: starting from
`m`, every node of the list that is better than the candidate replaces it. -/
def scan_best (better : Ptr → Ptr → Bool) : Ptr → List Ptr → Ptr
  | m, [] => m
  | m, c :: cs => scan_best better (if better c m then c else m) cs

/-- A numeric comparator that also accepts the null pointer and orders it
before every buffer; on two buffers it is `cmp_byte`. -/
def cmp_null_low : Cmp
  | none, some _ => -1
  | some _, none => 1
  | a, b => cmp_byte a b

/-- A numeric comparator that also accepts the null pointer and orders it
after every buffer; on two buffers it is `cmp_byte`. -/
def cmp_null_high : Cmp
  | none, some _ => 1
  | some _, none => -1
  | a, b => cmp_byte a b

/-- The first node of the sequence whose payload compares greater than the
payload of the node that follows it in the sequence; `NULL` when there is no
such node. -/
def first_inversion (h : Heap) (cmp : Cmp) : List Ptr → Ptr
  | p :: q :: rest =>
    if cmp (h.node p).data (h.node q).data > 0 then p else first_inversion h cmp (q :: rest)
  | _ => NULL

/-- Every element of the sequence stands in relation `R` to the element that
follows it. -/
def adjacent {α : Type} (R : α → α → Prop) : List α → Prop
  | a :: b :: l => R a b ∧ adjacent R (b :: l)
  | _ => True

instance adjacent.decidable {α : Type} (R : α → α → Prop) [DecidableRel R] :
    (l : List α) → Decidable (adjacent R l)
  | [] => inferInstanceAs (Decidable True)
  | [_] => inferInstanceAs (Decidable True)
  | a :: b :: l =>
    have := adjacent.decidable R (b :: l)
    inferInstanceAs (Decidable (R a b ∧ adjacent R (b :: l)))

/-- Adjacent nodes of the sequence are in order: no payload compares greater
than the payload of the node that follows it. -/
def adjacent_sorted (h : Heap) (cmp : Cmp) (ps : List Ptr) : Prop :=
  adjacent (fun a b => cmp (h.node a).data (h.node b).data ≤ 0) ps

/-- The payloads are strictly ascending under the comparator: every payload
compares less than the one that follows it. -/
def strictly_ascending (cmp : Cmp) (xs : List Bytes) : Prop :=
  adjacent (fun a b => cmp (some a) (some b) < 0) xs

instance adjacent_sorted.decidable (h : Heap) (cmp : Cmp) (ps : List Ptr) :
    Decidable (adjacent_sorted h cmp ps) :=
  inferInstanceAs (Decidable (adjacent _ ps))

instance strictly_ascending.decidable (cmp : Cmp) (xs : List Bytes) :
    Decidable (strictly_ascending cmp xs) :=
  inferInstanceAs (Decidable (adjacent _ xs))

/-- A comparator that answers "less" for every pair of payloads: its answers
express no order (swapping the arguments does not swap the sign). -/
def cmp_always_less : Cmp := fun _ _ => -1

/-! ## Reading a cell after an assignment -/

section updates
variable (h : Heap) (p q v : Ptr)

@[simp] theorem setNext_next :
    ((h.setNext p v).node q).next = if q = p then v else (h.node q).next := by
  unfold Heap.setNext; dsimp only; split <;> rfl

@[simp] theorem setNext_prev : ((h.setNext p v).node q).prev = (h.node q).prev := by
  unfold Heap.setNext; dsimp only; split <;> rfl

@[simp] theorem setNext_size : ((h.setNext p v).node q).size = (h.node q).size := by
  unfold Heap.setNext; dsimp only; split <;> rfl

@[simp] theorem setNext_data : ((h.setNext p v).node q).data = (h.node q).data := by
  unfold Heap.setNext; dsimp only; split <;> rfl

@[simp] theorem setNext_brk : (h.setNext p v).brk = h.brk := rfl

@[simp] theorem setPrev_prev :
    ((h.setPrev p v).node q).prev = if q = p then v else (h.node q).prev := by
  unfold Heap.setPrev; dsimp only; split <;> rfl

@[simp] theorem setPrev_next : ((h.setPrev p v).node q).next = (h.node q).next := by
  unfold Heap.setPrev; dsimp only; split <;> rfl

@[simp] theorem setPrev_size : ((h.setPrev p v).node q).size = (h.node q).size := by
  unfold Heap.setPrev; dsimp only; split <;> rfl

@[simp] theorem setPrev_data : ((h.setPrev p v).node q).data = (h.node q).data := by
  unfold Heap.setPrev; dsimp only; split <;> rfl

@[simp] theorem setPrev_brk : (h.setPrev p v).brk = h.brk := rfl

@[simp] theorem setSize_size (n : Nat) :
    ((h.setSize p n).node q).size = if q = p then n else (h.node q).size := by
  unfold Heap.setSize; dsimp only; split <;> rfl

@[simp] theorem setSize_next (n : Nat) : ((h.setSize p n).node q).next = (h.node q).next := by
  unfold Heap.setSize; dsimp only; split <;> rfl

@[simp] theorem setSize_prev (n : Nat) : ((h.setSize p n).node q).prev = (h.node q).prev := by
  unfold Heap.setSize; dsimp only; split <;> rfl

@[simp] theorem setSize_data (n : Nat) : ((h.setSize p n).node q).data = (h.node q).data := by
  unfold Heap.setSize; dsimp only; split <;> rfl

@[simp] theorem setSize_brk (n : Nat) : (h.setSize p n).brk = h.brk := rfl

@[simp] theorem setData_data (d : Data) :
    ((h.setData p d).node q).data = if q = p then d else (h.node q).data := by
  unfold Heap.setData; dsimp only; split <;> rfl

@[simp] theorem setData_next (d : Data) : ((h.setData p d).node q).next = (h.node q).next := by
  unfold Heap.setData; dsimp only; split <;> rfl

@[simp] theorem setData_prev (d : Data) : ((h.setData p d).node q).prev = (h.node q).prev := by
  unfold Heap.setData; dsimp only; split <;> rfl

@[simp] theorem setData_size (d : Data) : ((h.setData p d).node q).size = (h.node q).size := by
  unfold Heap.setData; dsimp only; split <;> rfl

@[simp] theorem setData_brk (d : Data) : (h.setData p d).brk = h.brk := rfl

theorem calloc_true_fst : (calloc h true).1 = h.brk := rfl

theorem calloc_true_brk : (calloc h true).2.brk = h.brk + 1 := rfl

theorem calloc_true_node_ne (hq : q ≠ h.brk) : (calloc h true).2.node q = h.node q := by
  simp [calloc, hq]

theorem calloc_true_node_self : (calloc h true).2.node h.brk = zeroNode := by
  simp [calloc]

end updates

/-! ## Doubly linked segments -/

theorem linked_snoc (h : Heap) (l : List Ptr) (a q b : Ptr) :
    linked h a (l ++ [q]) b ↔
      linked h a l q ∧ (h.node q).next = b ∧ (h.node b).prev = q := by
  induction l generalizing a with
  | nil => simp [linked, and_assoc]
  | cons p l ih => simp [linked, ih, and_assoc]

theorem linked_append (h : Heap) (l m : List Ptr) (a q b : Ptr) :
    linked h a (l ++ q :: m) b ↔ linked h a l q ∧ linked h q m b := by
  induction l generalizing a with
  | nil => simp [linked, and_assoc]
  | cons p l ih => simp [linked, ih, and_assoc]

theorem linked_frame {h h1 : Heap} {l : List Ptr} {a b : Ptr}
    (hn : ∀ q ∈ a :: l, (h1.node q).next = (h.node q).next)
    (hp : ∀ q ∈ l ++ [b], (h1.node q).prev = (h.node q).prev)
    (hl : linked h a l b) : linked h1 a l b := by
  induction l generalizing a with
  | nil =>
    simp only [linked] at hl ⊢
    rw [hn a (by simp), hp b (by simp)]; exact hl
  | cons p l ih =>
    simp only [linked] at hl ⊢
    refine ⟨?_, ih (fun q hq => hn q (by simp at hq ⊢; tauto))
      (fun q hq => hp q (by simp at hq ⊢; tauto)) hl.2⟩
    rw [hn a (by simp), hp p (by simp)]; exact hl.1

theorem push_into_list_fields (h : Heap) (head : Ptr) (size : Nat) (x : Bytes)
    (hh : head ≠ h.brk) (hb : h.brk ≠ NULL) :
    (push_into_list h head size x true true).1 = h.brk ∧
    (push_into_list h head size x true true).2.brk = h.brk + 1 ∧
    (∀ q, ((push_into_list h head size x true true).2.node q).next =
      if q = (h.node head).prev then h.brk else if q = h.brk then head else (h.node q).next) ∧
    (∀ q, ((push_into_list h head size x true true).2.node q).prev =
      if q = head then h.brk else if q = h.brk then (h.node head).prev else (h.node q).prev) ∧
    (∀ q, ((push_into_list h head size x true true).2.node q).data =
      if q = h.brk then some (x.take size) else (h.node q).data) ∧
    (∀ q, ((push_into_list h head size x true true).2.node q).size =
      if q = h.brk then size else (h.node q).size) := by
  have hb' : ¬ h.brk = 0 := hb
  simp only [push_into_list, calloc_true_fst, if_neg hb']
  simp [calloc_true_node_ne h head hh, calloc_true_brk]
  refine ⟨?_, ?_, ?_, ?_⟩ <;> intro q <;> by_cases hq : q = h.brk <;> simp [hq, calloc_true_node_ne, calloc_true_node_self, zeroNode]

theorem Ring.lt_brk {h : Heap} {head : Ptr} {ps : List Ptr} (hr : Ring h head ps) {p : Ptr}
    (hp : p ∈ head :: ps) : p < h.brk := (hr.2.1 p hp).2

theorem Ring.ne_brk {h : Heap} {head : Ptr} {ps : List Ptr} (hr : Ring h head ps) {p : Ptr}
    (hp : p ∈ head :: ps) : p ≠ h.brk := Nat.ne_of_lt (hr.lt_brk hp)

theorem payloads_congr {h h1 : Heap} {ps : List Ptr}
    (hd : ∀ q ∈ ps, (h1.node q).data = (h.node q).data) : payloads h1 ps = payloads h ps := by
  unfold payloads
  exact List.map_congr_left hd

theorem push_into_list_wf (h : Heap) (head : Ptr) (ps : List Ptr) (xs : List Bytes) (size : Nat)
    (x : Bytes) (hwf : WellFormed h head ps xs) :
    WellFormed (push_into_list h head size x true true).2 head (ps ++ [h.brk])
      (xs ++ [x.take size]) := by
  obtain ⟨hr, hd, hs, hp⟩ := hwf
  have hh : head ≠ h.brk := hr.ne_brk (by simp)
  have hb : h.brk ≠ NULL := Nat.not_eq_zero_of_lt (hr.lt_brk (List.mem_cons_self _ _))
  obtain ⟨-, e2, en, ep, ed, es⟩ := push_into_list_fields h head size x hh hb
  have hfresh : h.brk ∉ head :: ps := fun hm => hr.ne_brk hm rfl
  obtain ⟨hnd, hal, hl⟩ := hr
  refine ⟨⟨?_, ?_, ?_⟩, ?_, ?_, ?_⟩
  · have : (head :: ps ++ [h.brk]).Nodup := by
      rw [List.nodup_append]
      refine ⟨hnd, by simp, ?_⟩
      intro a ha hb2
      simp at hb2
      exact hfresh (hb2 ▸ ha)
    simpa using this
  · intro p hp
    rw [e2]
    have : p ∈ head :: ps ∨ p = h.brk := by simp at hp ⊢; tauto
    rcases this with hp | rfl
    · exact ⟨(hal p hp).1, Nat.lt_succ_of_lt (hal p hp).2⟩
    · exact ⟨hb, Nat.lt_succ_self _⟩
  · rcases List.eq_nil_or_concat ps with rfl | ⟨l, t, rfl⟩
    · simp only [linked] at hl
      simp [linked, en, ep, hl.2, hh, hh.symm]
    · simp only [List.concat_eq_append] at hp hfresh hnd hal hl ⊢
      rw [linked_snoc] at hl
      obtain ⟨hl1, hl2, hl3⟩ := hl
      rw [linked_snoc, linked_snoc]
      have htb : t ≠ h.brk := fun e => hfresh (by simp [← e])
      have hth : t ≠ head := by
        intro e; subst e; simp at hnd
      refine ⟨⟨linked_frame ?_ ?_ hl1, ?_, ?_⟩, ?_, ?_⟩
      · intro q hq
        have hq1 : q ≠ t := by
          intro e; subst e
          rw [← List.cons_append, List.nodup_append] at hnd
          exact hnd.2.2 hq (by simp)
        have hq2 : q ≠ h.brk := fun e => hfresh (by
          rw [← e]; simp at hq ⊢; tauto)
        simp [en, hl3, hq1, hq2]
      · intro q hq
        have hq1 : q ≠ head := by
          intro e; subst e
          simp at hnd; simp at hq; tauto
        have hq2 : q ≠ h.brk := fun e => hfresh (by
          rw [← e]; simp at hq ⊢; tauto)
        simp [ep, hq1, hq2]
      · simp [en, hl3]
      · simp [ep, hl3, hh.symm]
      · simp [en, hl3, htb.symm, hh.symm]
      · simp [ep]
  · simp [ed, hh, hd]
  · simp [es, hh, hs]
  · unfold payloads at hp ⊢
    rw [List.map_append, List.map_append, ← hp]
    congr 1
    · apply List.map_congr_left
      intro q hq
      have : q ≠ h.brk := fun e => hfresh (by rw [← e]; simp [hq])
      simp [ed, this]
    · simp [ed]

theorem unshift_into_list_fields (h : Heap) (head : Ptr) (size : Nat) (x : Bytes)
    (hh : head ≠ h.brk) (hb : h.brk ≠ NULL) :
    (unshift_into_list h head size x true true).1 = h.brk ∧
    (unshift_into_list h head size x true true).2.brk = h.brk + 1 ∧
    (∀ q, ((unshift_into_list h head size x true true).2.node q).next =
      if q = head then h.brk else if q = h.brk then (h.node head).next else (h.node q).next) ∧
    (∀ q, ((unshift_into_list h head size x true true).2.node q).prev =
      if q = (h.node head).next then h.brk else if q = h.brk then head else (h.node q).prev) ∧
    (∀ q, ((unshift_into_list h head size x true true).2.node q).data =
      if q = h.brk then some (x.take size) else (h.node q).data) ∧
    (∀ q, ((unshift_into_list h head size x true true).2.node q).size =
      if q = h.brk then size else (h.node q).size) := by
  have hb' : ¬ h.brk = 0 := hb
  simp only [unshift_into_list, calloc_true_fst, if_neg hb']
  simp [calloc_true_node_ne h head hh, calloc_true_brk]
  refine ⟨?_, ?_, ?_, ?_⟩ <;> intro q <;> by_cases hq : q = h.brk <;>
    simp [hq, calloc_true_node_ne, calloc_true_node_self, zeroNode]

theorem unshift_into_list_wf (h : Heap) (head : Ptr) (ps : List Ptr) (xs : List Bytes)
    (size : Nat) (x : Bytes) (hwf : WellFormed h head ps xs) :
    WellFormed (unshift_into_list h head size x true true).2 head (h.brk :: ps)
      (x.take size :: xs) := by
  obtain ⟨hr, hd, hs, hp⟩ := hwf
  have hh : head ≠ h.brk := hr.ne_brk (by simp)
  have hb : h.brk ≠ NULL := Nat.not_eq_zero_of_lt (hr.lt_brk (List.mem_cons_self _ _))
  obtain ⟨-, e2, en, ep, ed, es⟩ := unshift_into_list_fields h head size x hh hb
  have hfresh : h.brk ∉ head :: ps := fun hm => hr.ne_brk hm rfl
  obtain ⟨hnd, hal, hl⟩ := hr
  refine ⟨⟨?_, ?_, ?_⟩, ?_, ?_, ?_⟩
  · simp only [List.nodup_cons, List.mem_cons, not_or] at hnd hfresh ⊢
    exact ⟨⟨hh, hnd.1⟩, hfresh.2, hnd.2⟩
  · intro p hp
    rw [e2]
    have : p ∈ head :: ps ∨ p = h.brk := by simp at hp ⊢; tauto
    rcases this with hp | rfl
    · exact ⟨(hal p hp).1, Nat.lt_succ_of_lt (hal p hp).2⟩
    · exact ⟨hb, Nat.lt_succ_self _⟩
  · cases ps with
    | nil =>
      simp only [linked] at hl
      simp [linked, en, ep, hl.1, hh, hh.symm]
    | cons f l =>
      simp only [linked] at hl ⊢
      obtain ⟨⟨hl1, hl2⟩, hl3⟩ := hl
      have hfb : f ≠ h.brk := fun e => hfresh (by simp [← e])
      have hfh : f ≠ head := by
        intro e; subst e; simp at hnd
      refine ⟨⟨?_, ?_⟩, ⟨?_, ?_⟩, linked_frame ?_ ?_ hl3⟩
      · simp [en]
      · simp [ep, hl1, hh.symm, hfb.symm]
      · simp [en, hl1, hh.symm]
      · simp [ep, hl1]
      · intro q hq
        have hq1 : q ≠ head := by
          intro e; subst e
          simp at hnd; simp at hq; tauto
        have hq2 : q ≠ h.brk := fun e => hfresh (by
          rw [← e]; simp at hq ⊢; tauto)
        simp [en, hq1, hq2]
      · intro q hq
        have hq1 : q ≠ f := by
          intro e; subst e
          simp at hnd; simp at hq; tauto
        have hq2 : q ≠ h.brk := fun e => hfresh (by
          rw [← e]; simp at hq ⊢; tauto)
        simp [ep, hl1, hq1, hq2]
  · simp [ed, hh, hd]
  · simp [es, hh, hs]
  · unfold payloads at hp ⊢
    rw [List.map_cons, List.map_cons, ← hp]
    congr 1
    · simp [ed]
    · apply List.map_congr_left
      intro q hq
      have : q ≠ h.brk := fun e => hfresh (by rw [← e]; simp [hq])
      simp [ed, this]

theorem pop_from_list_nil (h : Heap) (head : Ptr) (hr : Ring h head []) :
    pop_from_list h head = (NULL, h) := by
  have := hr.2.2
  simp only [linked] at this
  simp [pop_from_list, this.2]

theorem pop_from_list_fields (h : Heap) (head : Ptr) (hne : (h.node head).prev ≠ head) :
    (pop_from_list h head).1 = (h.node head).prev ∧
    (pop_from_list h head).2.brk = h.brk ∧
    (∀ q, ((pop_from_list h head).2.node q).next =
      if q = (h.node (h.node head).prev).prev then head else (h.node q).next) ∧
    (∀ q, ((pop_from_list h head).2.node q).prev =
      if q = head then (h.node (h.node head).prev).prev else (h.node q).prev) ∧
    (∀ q, ((pop_from_list h head).2.node q).data = (h.node q).data) ∧
    (∀ q, ((pop_from_list h head).2.node q).size = (h.node q).size) := by
  simp [pop_from_list, hne]

theorem pop_from_list_snoc (h : Heap) (head : Ptr) (l : List Ptr) (t : Ptr) (xs : List Bytes)
    (x : Bytes) (hwf : WellFormed h head (l ++ [t]) (xs ++ [x])) :
    (pop_from_list h head).1 = t ∧ WellFormed (pop_from_list h head).2 head l xs ∧
      ((pop_from_list h head).2.node t).data = some x ∧
      ((pop_from_list h head).2.node t).size = (h.node t).size := by
  obtain ⟨⟨hnd, hal, hl⟩, hd, hs, hp⟩ := hwf
  rw [linked_snoc] at hl
  obtain ⟨hl1, hl2, hl3⟩ := hl
  have hth : t ≠ head := by
    intro e; subst e; simp at hnd
  obtain ⟨e1, e2, en, ep, ed, es⟩ := pop_from_list_fields h head (by rw [hl3]; exact hth)
  rw [hl3] at e1 en ep
  unfold payloads at hp
  rw [List.map_append, List.map_append] at hp
  have hlen : (l.map fun p => (h.node p).data).length = (xs.map some).length := by
    have := congrArg List.length hp
    simpa using this
  obtain ⟨hp1, hp2⟩ := List.append_inj hp hlen
  refine ⟨e1, ⟨⟨?_, ?_, ?_⟩, ?_, ?_, ?_⟩, ?_, es t⟩
  · rw [← List.cons_append] at hnd
    exact (List.nodup_append.1 hnd).1
  · intro p hp
    rw [e2]
    exact hal p (by simp at hp ⊢; tauto)
  · rcases List.eq_nil_or_concat l with rfl | ⟨m, u, rfl⟩
    · simp only [linked] at hl1 ⊢
      simp [en, ep, hl1.2]
    · simp only [List.concat_eq_append] at hnd hl1 ⊢
      rw [linked_snoc] at hl1 ⊢
      obtain ⟨hm1, hm2, hm3⟩ := hl1
      refine ⟨linked_frame ?_ ?_ hm1, ?_, ?_⟩
      · intro q hq
        have hq1 : q ≠ u := by
          intro e; subst e
          rw [← List.cons_append, ← List.cons_append, List.append_assoc,
            List.nodup_append] at hnd
          exact hnd.2.2 hq (by simp)
        simp [en, hm3, hq1]
      · intro q hq
        have hq1 : q ≠ head := by
          intro e; subst e
          simp at hnd; simp at hq; tauto
        simp [ep, hq1]
      · simp [en, hm3]
      · simp [ep, hm3]
  · rw [ed]; exact hd
  · rw [es]; exact hs
  · unfold payloads
    rw [← hp1]
    exact List.map_congr_left fun q _ => ed q
  · rw [ed]
    simpa using hp2

theorem linked_retarget {h h1 : Heap} {l : List Ptr} {a n b : Ptr}
    (hl : linked h a l n) (hnd : (a :: l).Nodup) (hb : b ∉ l)
    (hn : ∀ q, (h1.node q).next = if q = (h.node n).prev then b else (h.node q).next)
    (hp : ∀ q, (h1.node q).prev = if q = b then (h.node n).prev else (h.node q).prev) :
    linked h1 a l b := by
  rcases List.eq_nil_or_concat l with rfl | ⟨m, u, rfl⟩
  · simp only [linked] at hl ⊢
    simp [hn, hp, hl.2]
  · simp only [List.concat_eq_append] at hl hnd hb ⊢
    rw [linked_snoc] at hl ⊢
    obtain ⟨hm1, hm2, hm3⟩ := hl
    refine ⟨linked_frame ?_ ?_ hm1, ?_, ?_⟩
    · intro q hq
      have hq1 : q ≠ u := by
        intro e; subst e
        rw [← List.cons_append, List.nodup_append] at hnd
        exact hnd.2.2 hq (by simp)
      simp [hn, hm3, hq1]
    · intro q hq
      have hq1 : q ≠ b := by
        intro e; subst e; exact hb hq
      simp [hp, hq1]
    · simp [hn, hm3]
    · simp [hp, hm3]

theorem linked_prev_mem {h : Heap} {l : List Ptr} {a b : Ptr} (hl : linked h a l b) :
    (h.node b).prev ∈ a :: l := by
  rcases List.eq_nil_or_concat l with rfl | ⟨m, u, rfl⟩
  · simp only [linked] at hl
    simp [hl.2]
  · simp only [List.concat_eq_append] at hl ⊢
    rw [linked_snoc] at hl
    simp [hl.2.2]

theorem remove_loop_skip (h : Heap) (head n : Ptr) (l : List Ptr) (a b : Ptr)
    (hl : linked h a l b) (hn : n ∉ l) (hh : head ∉ l) (k : Nat) :
    remove_loop h head n (l.length + k) (h.node a).next = remove_loop h head n k b := by
  induction l generalizing a with
  | nil =>
    simp only [linked] at hl
    simp [hl.1]
  | cons p l ih =>
    simp only [linked] at hl
    simp only [List.mem_cons, not_or] at hn hh
    have e : (p :: l).length + k = (l.length + k) + 1 := by simp; omega
    rw [e, hl.1.1, remove_loop]
    rw [if_neg (Ne.symm hh.1), if_neg (Ne.symm hn.1)]
    exact ih p hl.2 hn.2 hh.2

theorem remove_from_list_not_found (h : Heap) (head n : Ptr) (ps : List Ptr) (fuel : Nat)
    (hr : Ring h head ps) (hn : n ∉ ps) (hfuel : ps.length < fuel) :
    remove_from_list fuel h head n = some (NULL, h) := by
  obtain ⟨k, rfl⟩ : ∃ k, fuel = ps.length + (k + 1) := ⟨fuel - ps.length - 1, by omega⟩
  have hh : head ∉ ps := (List.nodup_cons.1 hr.1).1
  unfold remove_from_list
  rw [remove_loop_skip h head n ps head head hr.2.2 hn hh]
  simp [remove_loop]

theorem remove_from_list_found (h : Heap) (head n : Ptr) (l1 l2 : List Ptr)
    (x1 x2 : List Bytes) (x : Bytes) (fuel : Nat)
    (hwf : WellFormed h head (l1 ++ n :: l2) (x1 ++ x :: x2)) (hlen : x1.length = l1.length)
    (hfuel : (l1 ++ n :: l2).length < fuel) :
    ∃ h1, remove_from_list fuel h head n = some (n, h1) ∧
      WellFormed h1 head (l1 ++ l2) (x1 ++ x2) ∧ (h1.node n).data = some x ∧
      (h1.node n).size = (h.node n).size := by
  obtain ⟨⟨hnd, hal, hl⟩, hd, hs, hp⟩ := hwf
  rw [linked_append] at hl
  obtain ⟨hl1, hl2⟩ := hl
  obtain ⟨k, rfl⟩ : ∃ k, fuel = l1.length + (k + 1) :=
    ⟨fuel - l1.length - 1, by simp at hfuel; omega⟩
  have hnd1 : (head :: l1).Nodup := by
    rw [← List.cons_append] at hnd
    exact (List.nodup_append.1 hnd).1
  have hdis : ∀ q ∈ head :: l1, q ∉ n :: l2 := by
    rw [← List.cons_append] at hnd
    exact fun q hq hq2 => (List.nodup_append.1 hnd).2.2 hq hq2
  have hnd2 : (n :: l2).Nodup := by
    rw [← List.cons_append] at hnd
    exact (List.nodup_append.1 hnd).2.1
  have hn1 : n ∉ l1 := fun hm => hdis n (by simp [hm]) (by simp)
  have hh1 : head ∉ l1 := (List.nodup_cons.1 hnd1).1
  have hnh : n ≠ head := fun e => hdis head (by simp) (by simp [e])
  unfold payloads at hp
  rw [List.map_append, List.map_append, List.map_cons, List.map_cons] at hp
  obtain ⟨hp1, hp2⟩ := List.append_inj hp (by simp [hlen])
  rw [List.cons.injEq] at hp2
  refine ⟨(h.setNext (h.node n).prev (h.node n).next).setPrev (h.node n).next (h.node n).prev,
    ?_, ?_, ?_, ?_⟩
  · unfold remove_from_list
    rw [remove_loop_skip h head n l1 head n hl1 hn1 hh1, remove_loop]
    simp [hnh]
  · refine ⟨⟨?_, ?_, ?_⟩, ?_, ?_, ?_⟩
    · have hsub : (head :: (l1 ++ l2)).Sublist (head :: (l1 ++ n :: l2)) := by
        simp only [List.cons_sublist_cons]
        exact List.Sublist.append_left (List.sublist_cons_self _ _) _
      exact hnd.sublist hsub
    · intro p hp
      simp only [setPrev_brk, setNext_brk]
      exact hal p (by simp at hp ⊢; tauto)
    · cases l2 with
      | nil =>
        simp only [linked] at hl2
        rw [List.append_nil]
        refine linked_retarget hl1 hnd1 hh1 ?_ ?_
        · intro q; simp [hl2.1]
        · intro q; simp [hl2.1]
      | cons s m =>
        simp only [linked] at hl2
        obtain ⟨⟨hs1, hs2⟩, hs3⟩ := hl2
        rw [linked_append]
        have hs_l1 : s ∉ l1 := fun hm => hdis s (by simp [hm]) (by simp)
        refine ⟨linked_retarget hl1 hnd1 hs_l1 ?_ ?_, linked_frame ?_ ?_ hs3⟩
        · intro q; simp [hs1]
        · intro q; simp [hs1]
        · intro q hq
          have hq1 : q ≠ (h.node n).prev := by
            intro e
            exact hdis _ (linked_prev_mem hl1) (e ▸ List.mem_cons_of_mem _ hq)
          simp [hq1]
        · intro q hq
          have hq1 : q ≠ s := by
            intro e; subst e
            simp only [List.mem_append, List.mem_singleton] at hq
            rcases hq with hq | hq
            · simp at hnd2; tauto
            · exact hdis head (by simp) (by simp [hq])
          simp [hs1, hq1]
    · simpa using hd
    · simpa using hs
    · unfold payloads
      rw [List.map_append, List.map_append, ← hp1, ← hp2.2]
      simp
  · simpa using hp2.1
  · simp

/-! ## The traversals of a ring -/

theorem walk_next_linked (h : Heap) (head : Ptr) (l : List Ptr) (a : Ptr)
    (hl : linked h a l head) (hh : head ∉ l) (k : Nat) :
    walk_next h head (l.length + k + 1) (h.node a).next = some l := by
  induction l generalizing a with
  | nil =>
    simp only [linked] at hl
    simp [walk_next, hl.1]
  | cons p l ih =>
    simp only [linked] at hl
    simp only [List.mem_cons, not_or] at hh
    have e : (p :: l).length + k + 1 = (l.length + k + 1) + 1 := by simp; omega
    rw [e, hl.1.1, walk_next, if_neg (Ne.symm hh.1), ih p hl.2 hh.2]
    rfl

theorem walk_prev_linked (h : Heap) (head : Ptr) (l : List Ptr) (b : Ptr)
    (hl : linked h head l b) (hh : head ∉ l) (k : Nat) :
    walk_prev h head (l.length + k + 1) (h.node b).prev = some l.reverse := by
  induction l using List.reverseRecOn generalizing b with
  | nil =>
    simp only [linked] at hl
    simp [walk_prev, hl.2]
  | append_singleton m u ih =>
    rw [linked_snoc] at hl
    simp only [List.mem_append, List.mem_singleton, not_or] at hh
    have e : (m ++ [u]).length + k + 1 = (m.length + k + 1) + 1 := by simp; omega
    rw [e, hl.2.2, walk_prev, if_neg (Ne.symm hh.2), ih u hl.1 hh.1]
    simp

theorem Ring.head_not_mem {h : Heap} {head : Ptr} {ps : List Ptr} (hr : Ring h head ps) :
    head ∉ ps := (List.nodup_cons.1 hr.1).1

theorem Ring.forward_eq {h : Heap} {head : Ptr} {ps : List Ptr} (hr : Ring h head ps)
    {fuel : Nat} (hf : ps.length < fuel) : forward fuel h head = some ps := by
  obtain ⟨k, rfl⟩ : ∃ k, fuel = ps.length + k + 1 := ⟨fuel - ps.length - 1, by omega⟩
  exact walk_next_linked h head ps head hr.2.2 hr.head_not_mem k

theorem Ring.backward_eq {h : Heap} {head : Ptr} {ps : List Ptr} (hr : Ring h head ps)
    {fuel : Nat} (hf : ps.length < fuel) : backward fuel h head = some ps.reverse := by
  obtain ⟨k, rfl⟩ : ∃ k, fuel = ps.length + k + 1 := ⟨fuel - ps.length - 1, by omega⟩
  exact walk_prev_linked h head ps head hr.2.2 hr.head_not_mem k

theorem Ring.unique {h : Heap} {head : Ptr} {ps qs : List Ptr} (hp : Ring h head ps)
    (hq : Ring h head qs) : ps = qs := by
  have h1 := hp.forward_eq (Nat.lt_succ_of_le (Nat.le_max_left ps.length qs.length))
  have h2 := hq.forward_eq (Nat.lt_succ_of_le (Nat.le_max_right ps.length qs.length))
  rw [h1] at h2
  exact Option.some.inj h2

theorem create_empty_list_wf (h : Heap) (hb : h.brk ≠ NULL) :
    (create_empty_list h true).1 = h.brk ∧
      WellFormed (create_empty_list h true).2 h.brk [] [] := by
  have hb' : ¬ h.brk = 0 := hb
  simp only [create_empty_list, calloc_true_fst, if_neg hb']
  refine ⟨trivial, ⟨?_, ?_, ?_⟩, ?_, ?_, ?_⟩
  · simp
  · intro p hp
    simp only [List.mem_singleton] at hp
    subst hp
    simp [calloc_true_brk, hb']
  · simp [linked]
  · simp
  · simp [calloc_true_node_self, zeroNode]
  · simp [payloads]

/-! ## Sequences of pushes and pops -/

theorem push_into_list_success (h : Heap) (head : Ptr) (size : Nat) (x : Bytes)
    (node_ok buf_ok : Bool) (hb : h.brk ≠ NULL) :
    (push_into_list h head size x node_ok buf_ok).1 ≠ NULL ↔
      node_ok = true ∧ buf_ok = true := by
  have hb' : ¬ h.brk = 0 := hb
  cases node_ok <;> cases buf_ok <;> simp [push_into_list, calloc, free, hb']

theorem unshift_into_list_success (h : Heap) (head : Ptr) (size : Nat) (x : Bytes)
    (node_ok buf_ok : Bool) (hb : h.brk ≠ NULL) :
    (unshift_into_list h head size x node_ok buf_ok).1 ≠ NULL ↔
      node_ok = true ∧ buf_ok = true := by
  have hb' : ¬ h.brk = 0 := hb
  cases node_ok <;> cases buf_ok <;> simp [unshift_into_list, calloc, free, hb']

theorem WellFormed.brk_ne {h : Heap} {head : Ptr} {ps : List Ptr} {xs : List Bytes}
    (hwf : WellFormed h head ps xs) : h.brk ≠ NULL :=
  Nat.not_eq_zero_of_lt (hwf.1.lt_brk (List.mem_cons_self _ _))

theorem push_into_list_fst (h : Heap) (head : Ptr) (size : Nat) (x : Bytes)
    (hb : h.brk ≠ NULL) : (push_into_list h head size x true true).1 = h.brk := by
  have hb' : ¬ h.brk = 0 := hb
  simp [push_into_list, calloc_true_fst, hb']

theorem unshift_into_list_fst (h : Heap) (head : Ptr) (size : Nat) (x : Bytes)
    (hb : h.brk ≠ NULL) : (unshift_into_list h head size x true true).1 = h.brk := by
  have hb' : ¬ h.brk = 0 := hb
  simp [unshift_into_list, calloc_true_fst, hb']

theorem push_all_wf (head : Ptr) (ys : List Bytes) (h : Heap) (ps : List Ptr)
    (xs : List Bytes) (hwf : WellFormed h head ps xs) :
    WellFormed (push_all head h ys).2 head (ps ++ (push_all head h ys).1) (xs ++ ys) ∧
      (push_all head h ys).1.length = ys.length := by
  induction ys generalizing h ps xs with
  | nil => simpa [push_all] using hwf
  | cons y ys ih =>
    have h1 := push_into_list_wf h head ps xs y.length y hwf
    rw [List.take_length, ← push_into_list_fst h head y.length y hwf.brk_ne] at h1
    have h2 := ih _ _ _ h1
    simp only [push_all, List.length_cons, Nat.add_right_cancel_iff]
    simpa using h2

theorem unshift_all_wf (head : Ptr) (ys : List Bytes) (h : Heap) (ps : List Ptr)
    (xs : List Bytes) (hwf : WellFormed h head ps xs) :
    WellFormed (unshift_all head h ys).2 head ((unshift_all head h ys).1.reverse ++ ps)
      (ys.reverse ++ xs) := by
  induction ys generalizing h ps xs with
  | nil => simpa [unshift_all] using hwf
  | cons y ys ih =>
    have h1 := unshift_into_list_wf h head ps xs y.length y hwf
    rw [List.take_length, ← unshift_into_list_fst h head y.length y hwf.brk_ne] at h1
    have h2 := ih _ _ _ h1
    simp only [unshift_all]
    simpa using h2

theorem pop_from_list_data (h : Heap) (head q : Ptr) :
    ((pop_from_list h head).2.node q).data = (h.node q).data := by
  unfold pop_from_list
  split <;> simp

theorem pop_n_data (head : Ptr) (k : Nat) (h : Heap) (q : Ptr) :
    ((pop_n head h k).2.node q).data = (h.node q).data := by
  induction k generalizing h with
  | zero => rfl
  | succ k ih => simp [pop_n, ih, pop_from_list_data]

theorem pop_n_wf (head : Ptr) (ns : List Ptr) (ys : List Bytes) (h : Heap) (ps : List Ptr)
    (xs : List Bytes) (hwf : WellFormed h head (ps ++ ns) (xs ++ ys))
    (hlen : ns.length = ys.length) :
    (pop_n head h ns.length).1 = ns.reverse ∧ WellFormed (pop_n head h ns.length).2 head ps xs ∧
      payloads (pop_n head h ns.length).2 ns = ys.map some := by
  induction ns using List.reverseRecOn generalizing ys h with
  | nil =>
    have : ys = [] := List.length_eq_zero.1 hlen.symm
    subst this
    simpa [pop_n, payloads] using hwf
  | append_singleton m u ih =>
    rcases List.eq_nil_or_concat ys with rfl | ⟨zs, z, rfl⟩
    · simp at hlen
    · simp only [List.concat_eq_append] at hwf hlen ⊢
      rw [← List.append_assoc, ← List.append_assoc] at hwf
      obtain ⟨e1, hwf1, ed, -⟩ := pop_from_list_snoc h head (ps ++ m) u (xs ++ zs) z hwf
      have hl : m.length = zs.length := by simpa using hlen
      obtain ⟨i1, i2, i3⟩ := ih zs _ hwf1 hl
      have e : (m ++ [u]).length = m.length + 1 := by simp
      rw [e]
      simp only [pop_n]
      refine ⟨by rw [i1, e1]; simp, i2, ?_⟩
      unfold payloads at i3 ⊢
      rw [List.map_append, List.map_append, i3]
      simp [pop_n_data, ed]

/-! ## Removal stated with `erase` -/

theorem remove_loop_payload (h : Heap) (head n : Ptr) (fuel : Nat) (cur : Ptr)
    (r : Ptr × Heap) (hr : remove_loop h head n fuel cur = some r) (q : Ptr) :
    (r.2.node q).data = (h.node q).data ∧ (r.2.node q).size = (h.node q).size := by
  induction fuel generalizing cur with
  | zero => simp [remove_loop] at hr
  | succ fuel ih =>
    rw [remove_loop] at hr
    split at hr
    · cases hr; simp
    · split at hr
      · cases hr; simp
      · exact ih _ hr

theorem remove_from_list_mem (h : Heap) (head n : Ptr) (ps : List Ptr) (xs : List Bytes)
    (fuel : Nat) (hwf : WellFormed h head ps xs) (hn : n ∈ ps) (hfuel : ps.length < fuel) :
    ∃ h1, remove_from_list fuel h head n = some (n, h1) ∧
      WellFormed h1 head (ps.erase n) (xs.eraseIdx (ps.indexOf n)) := by
  obtain ⟨l1, l2, rfl⟩ := List.append_of_mem hn
  have hnd : (l1 ++ n :: l2).Nodup := (List.nodup_cons.1 hwf.1.1).2
  have hn1 : n ∉ l1 := fun hm => (List.nodup_append.1 hnd).2.2 hm (by simp)
  have hlen : xs.length = (l1 ++ n :: l2).length := by
    have := congrArg List.length hwf.2.2.2
    simpa [payloads] using this.symm
  have hlt : l1.length < xs.length := by rw [hlen]; simp
  have hxs : xs = xs.take l1.length ++ xs[l1.length] :: xs.drop (l1.length + 1) := by
    rw [← List.drop_eq_getElem_cons hlt, List.take_append_drop]
  have hx1 : (xs.take l1.length).length = l1.length := by
    rw [List.length_take]; omega
  rw [hxs] at hwf
  obtain ⟨h1, e1, hwf1, -, -⟩ := remove_from_list_found h head n l1 l2 _ _ _ fuel hwf hx1 hfuel
  refine ⟨h1, e1, ?_⟩
  have e2 : (l1 ++ n :: l2).erase n = l1 ++ l2 := by
    rw [List.erase_append_right _ hn1, List.erase_cons_head]
  have e3 : (l1 ++ n :: l2).indexOf n = l1.length := by
    rw [List.indexOf_append_of_not_mem hn1, List.indexOf_cons_self, Nat.add_zero]
  have e4 : xs.eraseIdx l1.length = xs.take l1.length ++ xs.drop (l1.length + 1) :=
    List.eraseIdx_eq_take_drop_succ xs l1.length
  rw [e2, e3, e4]
  exact hwf1

/-! ## The search loop -/

theorem find_counts_strict (op : list_comparison_operator) (result : Int)
    (hop : op = LIST_CMP_LT ∨ op = LIST_CMP_GT ∨ op = LIST_CMP_NE) :
    find_counts result op = op_holds op result := by
  rcases hop with rfl | rfl | rfl
  · simp [find_counts, op_holds]
  · simp [find_counts, op_holds]
  · simp only [find_counts, op_holds]
    rcases lt_trichotomy result 0 with hlt | heq | hgt
    · simp [hlt, hlt.ne]
    · simp [heq]
    · simp [hgt, hgt.ne']

theorem find_loop_linked (h : Heap) (head : Ptr) (key : Data) (cmp : Cmp)
    (op : list_comparison_operator) (n : Int)
    (hop : op = LIST_CMP_LT ∨ op = LIST_CMP_GT ∨ op = LIST_CMP_NE)
    (l : List Ptr) (a : Ptr) (hl : linked h a l head) (hh : head ∉ l) (c : Int) (hc : c < n)
    (k : Nat) :
    find_loop h head key cmp op n (l.length + k + 1) c (h.node a).next =
      some ((matching h key cmp op l).getD (n - c - 1).toNat NULL) := by
  induction l generalizing a c with
  | nil =>
    simp only [linked] at hl
    simp [find_loop, hl.1, matching]
  | cons p l ih =>
    simp only [linked] at hl
    simp only [List.mem_cons, not_or] at hh
    have e : (p :: l).length + k + 1 = (l.length + k + 1) + 1 := by simp; omega
    rw [e, hl.1.1, find_loop, if_neg (Ne.symm hh.1)]
    simp only [find_counts_strict op _ hop]
    by_cases hm : op_holds op (cmp (h.node p).data key) = true
    · have em : matching h key cmp op (p :: l) = p :: matching h key cmp op l := by
        simp [matching, List.filter_cons, hm]
      rw [em]
      simp only [hm, if_true]
      by_cases hge : c + 1 ≥ n
      · rw [if_pos hge]
        have : (n - c - 1).toNat = 0 := by omega
        rw [this]; rfl
      · rw [if_neg hge, ih p hl.2 hh.2 (c + 1) (by omega)]
        have : (n - c - 1).toNat = (n - (c + 1) - 1).toNat + 1 := by omega
        rw [this]; rfl
    · have em : matching h key cmp op (p :: l) = matching h key cmp op l := by
        simp [matching, List.filter_cons, hm]
      rw [em]
      simp only [hm]
      have hge : ¬ c ≥ n := by omega
      simp only [Bool.false_eq_true, if_false, if_neg hge]
      exact ih p hl.2 hh.2 c hc

theorem matching_subset (h : Heap) (key : Data) (cmp : Cmp) (op : list_comparison_operator)
    (ps : List Ptr) : ∀ p ∈ matching h key cmp op ps, p ∈ ps := fun _ hp =>
  (List.mem_filter.1 hp).1

theorem getD_eq_null_iff (l : List Ptr) (hl : ∀ p ∈ l, p ≠ NULL) (i : Nat) :
    l.getD i NULL = NULL ↔ l.length ≤ i := by
  constructor
  · intro hnull
    by_contra hlt
    push_neg at hlt
    rw [List.getD_eq_getElem l NULL hlt] at hnull
    exact hl _ (List.getElem_mem _) hnull
  · intro hle
    exact List.getD_eq_default l NULL hle

/-! ## The search loop for every operator -/

theorem find_loop_counted (h : Heap) (head : Ptr) (key : Data) (cmp : Cmp)
    (op : list_comparison_operator) (n : Int) (l : List Ptr) (a : Ptr)
    (hl : linked h a l head) (hh : head ∉ l) (c : Int) (hc : c < n) (k : Nat) :
    find_loop h head key cmp op n (l.length + k + 1) c (h.node a).next =
      some ((l.filter fun p => find_counts (cmp (h.node p).data key) op).getD
        (n - c - 1).toNat NULL) := by
  induction l generalizing a c with
  | nil =>
    simp only [linked] at hl
    simp [find_loop, hl.1]
  | cons p l ih =>
    simp only [linked] at hl
    simp only [List.mem_cons, not_or] at hh
    have e : (p :: l).length + k + 1 = (l.length + k + 1) + 1 := by simp; omega
    rw [e, hl.1.1, find_loop, if_neg (Ne.symm hh.1)]
    by_cases hm : find_counts (cmp (h.node p).data key) op = true
    · have em : ((p :: l).filter fun p => find_counts (cmp (h.node p).data key) op) =
          p :: l.filter fun p => find_counts (cmp (h.node p).data key) op := by
        simp [List.filter_cons, hm]
      rw [em]
      simp only [hm, if_true]
      by_cases hge : c + 1 ≥ n
      · rw [if_pos hge]
        have : (n - c - 1).toNat = 0 := by omega
        rw [this]; rfl
      · rw [if_neg hge, ih p hl.2 hh.2 (c + 1) (by omega)]
        have : (n - c - 1).toNat = (n - (c + 1) - 1).toNat + 1 := by omega
        rw [this]; rfl
    · have em : ((p :: l).filter fun p => find_counts (cmp (h.node p).data key) op) =
          l.filter fun p => find_counts (cmp (h.node p).data key) op := by
        simp [List.filter_cons, hm]
      rw [em]
      simp only [hm]
      have hge : ¬ c ≥ n := by omega
      simp only [Bool.false_eq_true, if_false, if_neg hge]
      exact ih p hl.2 hh.2 c hc

theorem find_counts_unconditional (op : list_comparison_operator) (result : Int)
    (hop : op = LIST_CMP_EQ ∨ op = LIST_CMP_LE ∨ op = LIST_CMP_GE) :
    find_counts result op = true := by
  rcases hop with rfl | rfl | rfl <;> simp [find_counts]

theorem find_loop_nonpositive (h : Heap) (head : Ptr) (key : Data) (cmp : Cmp)
    (op : list_comparison_operator) (n : Int) (hn : n ≤ 0) (k : Nat) (p : Ptr)
    (hp : p ≠ head) : find_loop h head key cmp op n (k + 1) 0 p = some p := by
  rw [find_loop, if_neg hp]
  by_cases hm : find_counts (cmp (h.node p).data key) op = true
  · simp only [hm, if_true]
    rw [if_pos (by omega)]
  · simp only [hm]
    simp only [Bool.false_eq_true, if_false]
    rw [if_pos (by omega)]

/-! ## The sortedness check -/

theorem linked_next_head {h : Heap} {l : List Ptr} {a b : Ptr} (hl : linked h a l b) :
    (l ++ [b]).head? = some (h.node a).next := by
  cases l with
  | nil => simp only [linked] at hl; simp [hl.1]
  | cons p l => simp only [linked] at hl; simp [hl.1.1]

theorem pick_not_sorted_loop_linked (h : Heap) (e : Ptr) (cmp : Cmp) (w : List Ptr) (a : Ptr)
    (hl : linked h a w e) (he : e ∉ w) (k : Nat) :
    pick_not_sorted_loop h e cmp (w.length + k + 1) (h.node a).next =
      some (first_inversion h cmp (w ++ [e])) := by
  induction w generalizing a with
  | nil =>
    simp only [linked] at hl
    simp [pick_not_sorted_loop, hl.1, first_inversion]
  | cons c w ih =>
    simp only [linked] at hl
    simp only [List.mem_cons, not_or] at he
    have e1 : (c :: w).length + k + 1 = (w.length + k + 1) + 1 := by simp; omega
    rw [e1, hl.1.1, pick_not_sorted_loop, if_neg (Ne.symm he.1)]
    have hq := linked_next_head hl.2
    obtain ⟨rest, hrest⟩ : ∃ rest, w ++ [e] = (h.node c).next :: rest := by
      cases hw : w ++ [e] with
      | nil => simp at hw
      | cons q rest => rw [hw] at hq; simp at hq; exact ⟨rest, by rw [hq]⟩
    rw [List.cons_append, hrest, first_inversion, ← hrest]
    split
    · rfl
    · exact ih c hl.2 he.2

theorem adjacent_iff_chain {α : Type} (R : α → α → Prop) (l : List α) :
    adjacent R l ↔ List.Chain' R l := by
  induction l with
  | nil => simp [adjacent]
  | cons a l ih =>
    cases l with
    | nil => simp [adjacent]
    | cons b l => rw [adjacent, ih, List.chain'_cons]

theorem first_inversion_eq_null (h : Heap) (cmp : Cmp) (l : List Ptr)
    (hl : ∀ p ∈ l, p ≠ NULL) : first_inversion h cmp l = NULL ↔ adjacent_sorted h cmp l := by
  unfold adjacent_sorted
  rw [adjacent_iff_chain]
  induction l with
  | nil => simp [first_inversion]
  | cons p l ih =>
    cases l with
    | nil => simp [first_inversion]
    | cons q r =>
      rw [first_inversion, List.chain'_cons]
      by_cases hc : cmp (h.node p).data (h.node q).data > 0
      · rw [if_pos hc]
        constructor
        · intro hp; exact absurd hp (hl p (by simp))
        · intro hp; omega
      · rw [if_neg hc, ih (fun x hx => hl x (List.mem_cons_of_mem _ hx))]
        constructor
        · intro hp; exact ⟨by omega, hp⟩
        · intro hp; exact hp.2

theorem first_inversion_eq (h : Heap) (cmp : Cmp) (l : List Ptr) (p q : Ptr) (r : List Ptr)
    (hs : adjacent_sorted h cmp (l ++ [p]))
    (hpq : 0 < cmp (h.node p).data (h.node q).data) :
    first_inversion h cmp (l ++ p :: q :: r) = p := by
  unfold adjacent_sorted at hs
  rw [adjacent_iff_chain] at hs
  induction l with
  | nil => simp [first_inversion, hpq]
  | cons a l ih =>
    cases l with
    | nil =>
      simp only [List.cons_append, List.nil_append, List.chain'_cons] at hs ⊢
      rw [first_inversion, if_neg (by omega)]
      simp [first_inversion, hpq]
    | cons b l =>
      simp only [List.cons_append, List.chain'_cons] at hs ih ⊢
      rw [first_inversion, if_neg (by omega)]
      exact ih hs.2

theorem first_inversion_exists (h : Heap) (cmp : Cmp) (ps : List Ptr)
    (hns : ¬ adjacent_sorted h cmp ps) :
    ∃ l p q r, ps = l ++ p :: q :: r ∧ adjacent_sorted h cmp (l ++ [p]) ∧
      0 < cmp (h.node p).data (h.node q).data := by
  unfold adjacent_sorted at hns ⊢
  simp only [adjacent_iff_chain] at hns ⊢
  induction ps with
  | nil => simp at hns
  | cons a ps ih =>
    cases ps with
    | nil => simp at hns
    | cons b ps =>
      by_cases hc : cmp (h.node a).data (h.node b).data ≤ 0
      · rw [List.chain'_cons] at hns
        obtain ⟨l, p, q, r, e, hs, hpq⟩ := ih (fun hch => hns ⟨hc, hch⟩)
        refine ⟨a :: l, p, q, r, by rw [e]; rfl, ?_, hpq⟩
        cases l with
        | nil =>
          simp only [List.nil_append, List.cons.injEq] at e
          simp only [List.cons_append, List.nil_append, List.chain'_cons]
          exact ⟨e.1 ▸ hc, by simp⟩
        | cons l0 l =>
          simp only [List.cons_append, List.cons.injEq] at e
          simp only [List.cons_append, List.chain'_cons] at hs ⊢
          exact ⟨e.1 ▸ hc, hs⟩
      · exact ⟨[], a, b, ps, rfl, by simp, by omega⟩

theorem pick_not_sorted_from_list_eq (h : Heap) (head : Ptr) (ps : List Ptr) (cmp : Cmp)
    (fuel : Nat) (hr : Ring h head ps) (hfuel : ps.length < fuel) :
    pick_not_sorted_from_list fuel h head cmp = some (first_inversion h cmp ps) := by
  unfold pick_not_sorted_from_list pick_not_sorted_from_part_of_list
  rcases List.eq_nil_or_concat ps with rfl | ⟨w, t, rfl⟩
  · have hl := hr.2.2
    simp only [linked] at hl
    obtain ⟨k, rfl⟩ : ∃ k, fuel = k + 1 := ⟨fuel - 1, by simp at hfuel; omega⟩
    simp [pick_not_sorted_loop, hl.1, hl.2, first_inversion]
  · simp only [List.concat_eq_append] at hr hfuel ⊢
    have hl := hr.2.2
    rw [linked_snoc] at hl
    obtain ⟨k, rfl⟩ : ∃ k, fuel = w.length + k + 1 :=
      ⟨fuel - w.length - 1, by simp at hfuel; omega⟩
    have ht : t ∉ w := by
      have := (List.nodup_cons.1 hr.1).2
      rw [List.nodup_append] at this
      exact fun hm => this.2.2 hm (by simp)
    rw [hl.2.2]
    exact pick_not_sorted_loop_linked h t cmp w head hl.1 ht k

theorem adjacent_sorted_of_payloads (h : Heap) (cmp : Cmp) (l : List Ptr) (zs : List Bytes)
    (hp : payloads h l = zs.map some) :
    adjacent_sorted h cmp l ↔ List.Chain' (fun u v => cmp (some u) (some v) ≤ 0) zs := by
  unfold adjacent_sorted
  rw [adjacent_iff_chain]
  have h1 : List.Chain' (fun a b => cmp (h.node a).data (h.node b).data ≤ 0) l ↔
      List.Chain' (fun u v : Data => cmp u v ≤ 0) (payloads h l) := by
    unfold payloads
    rw [List.chain'_map]
  rw [h1, hp, List.chain'_map]

theorem payloads_split {h : Heap} {pl : List Ptr} {p q : Ptr} {pr : List Ptr}
    {ys : List Bytes} {b a : Bytes} {zs : List Bytes}
    (hp : payloads h (pl ++ p :: q :: pr) = (ys ++ b :: a :: zs).map some)
    (hlen : pl.length = ys.length) :
    payloads h pl = ys.map some ∧ (h.node p).data = some b ∧ (h.node q).data = some a := by
  unfold payloads at hp ⊢
  simp only [List.map_append, List.map_cons] at hp
  obtain ⟨h1, h2⟩ := List.append_inj hp (by simp [hlen])
  simp only [List.cons.injEq] at h2
  exact ⟨h1, h2.1, h2.2.1⟩

theorem swapped_pair_detected (h : Heap) (cmp : Cmp) (pl : List Ptr) (p q : Ptr)
    (pr : List Ptr) (ys : List Bytes) (a b : Bytes) (zs : List Bytes)
    (hp : payloads h (pl ++ p :: q :: pr) = (ys ++ b :: a :: zs).map some)
    (hlen : pl.length = ys.length) (hasc : strictly_ascending cmp (ys ++ a :: b :: zs))
    (hord : TotalPreorderOn cmp ((ys ++ b :: a :: zs).map some)) :
    first_inversion h cmp (pl ++ p :: q :: pr) = p := by
  obtain ⟨hp1, hp2, hp3⟩ := payloads_split hp hlen
  obtain ⟨hanti, htrans⟩ := hord
  have ha : some a ∈ (ys ++ b :: a :: zs).map some := by simp
  have hb : some b ∈ (ys ++ b :: a :: zs).map some := by simp
  unfold strictly_ascending at hasc
  rw [adjacent_iff_chain] at hasc
  have hab : cmp (some a) (some b) < 0 := by
    have := (List.chain'_append.1 hasc).2.1
    exact (List.chain'_cons.1 this).1
  apply first_inversion_eq
  · have hpay : payloads h (pl ++ [p]) = (ys ++ [b]).map some := by
      unfold payloads at hp1 ⊢
      simp [hp1, hp2]
    rw [adjacent_sorted_of_payloads h cmp _ _ hpay]
    rcases List.eq_nil_or_concat ys with rfl | ⟨ys1, y, rfl⟩
    · simp
    · simp only [List.concat_eq_append, List.append_assoc, List.singleton_append] at hasc ha hb ⊢
      have hy : some y ∈ (ys1 ++ y :: b :: a :: zs).map some := by simp
      have hch := List.chain'_append.1 hasc
      have hya : cmp (some y) (some a) < 0 := (List.chain'_cons.1 hch.2.1).1
      have hyb : cmp (some y) (some b) ≤ 0 :=
        htrans _ (by simp) _ (by simp) _ (by simp)
          (le_of_lt hya) (le_of_lt hab)
      have h1 : List.Chain' (fun u v => cmp (some u) (some v) ≤ 0) (ys1 ++ [y]) := by
        have h2 : List.Chain' (fun u v => cmp (some u) (some v) < 0) (ys1 ++ [y]) := by
          have := List.chain'_split.1 hasc
          exact this.1
        exact h2.imp fun _ _ hlt => le_of_lt hlt
      have h3 : List.Chain' (fun u v => cmp (some u) (some v) ≤ 0) (ys1 ++ [y] ++ [b]) := by
        rw [List.append_assoc, List.singleton_append]
        exact List.chain'_split.2 ⟨h1, by simp [hyb]⟩
      simpa using h3
  · rw [hp2, hp3]
    exact (hanti _ ha _ hb).1 hab

/-! ## The minimum and maximum loops -/

theorem get_min_loop_linked (h : Heap) (e : Ptr) (cmp : Cmp) (l : List Ptr) (a : Ptr)
    (hl : linked h a l e) (he : e ∉ l) (m : Ptr) (k : Nat) :
    get_min_loop h e cmp (l.length + k + 1) m (h.node a).next =
      some (scan_best (fun c m => decide (cmp (h.node c).data (h.node m).data < 0)) m l) := by
  induction l generalizing a m with
  | nil =>
    simp only [linked] at hl
    simp [get_min_loop, hl.1, scan_best]
  | cons c l ih =>
    simp only [linked] at hl
    simp only [List.mem_cons, not_or] at he
    have e1 : (c :: l).length + k + 1 = (l.length + k + 1) + 1 := by simp; omega
    rw [e1, hl.1.1, get_min_loop, if_neg (Ne.symm he.1), scan_best]
    simp only [decide_eq_true_eq]
    exact ih c hl.2 he.2 _

theorem get_max_loop_linked (h : Heap) (s : Ptr) (cmp : Cmp) (l : List Ptr) (b : Ptr)
    (hl : linked h s l b) (hs : s ∉ l) (m : Ptr) (k : Nat) :
    get_max_loop h s cmp (l.length + k + 1) m (h.node b).prev =
      some (scan_best (fun c m => decide (cmp (h.node c).data (h.node m).data > 0)) m
        l.reverse) := by
  induction l using List.reverseRecOn generalizing b m with
  | nil =>
    simp only [linked] at hl
    simp [get_max_loop, hl.2, scan_best]
  | append_singleton l u ih =>
    rw [linked_snoc] at hl
    simp only [List.mem_append, List.mem_singleton, not_or] at hs
    have e1 : (l ++ [u]).length + k + 1 = (l.length + k + 1) + 1 := by simp; omega
    rw [e1, hl.2.2, get_max_loop, if_neg (Ne.symm hs.2), List.reverse_append,
      List.reverse_singleton, List.singleton_append, scan_best]
    simp only [decide_eq_true_eq]
    exact ih u hl.1 hs.1 _

/-- The candidate kept by `scan_best` for a sign-reversing transitive score
`g` is the earliest element that no element beats. -/
theorem scan_best_spec (g : Ptr → Ptr → Int) (l v1 v2 : List Ptr) (m : Ptr)
    (hanti : ∀ a ∈ v1 ++ m :: v2 ++ l, ∀ b ∈ v1 ++ m :: v2 ++ l, (g a b < 0 ↔ 0 < g b a))
    (htrans : ∀ a ∈ v1 ++ m :: v2 ++ l, ∀ b ∈ v1 ++ m :: v2 ++ l, ∀ c ∈ v1 ++ m :: v2 ++ l,
      g a b ≤ 0 → g b c ≤ 0 → g a c ≤ 0)
    (hle : ∀ q ∈ v1 ++ m :: v2, g m q ≤ 0) (hlt : ∀ q ∈ v1, 0 < g q m) :
    ∃ w1 w2, v1 ++ m :: v2 ++ l = w1 ++ scan_best (fun c m => decide (g c m < 0)) m l :: w2 ∧
      (∀ q ∈ v1 ++ m :: v2 ++ l, g (scan_best (fun c m => decide (g c m < 0)) m l) q ≤ 0) ∧
      ∀ q ∈ w1, 0 < g q (scan_best (fun c m => decide (g c m < 0)) m l) := by
  induction l generalizing v1 v2 m with
  | nil =>
    refine ⟨v1, v2, by simp [scan_best], ?_, ?_⟩
    · simpa [scan_best] using hle
    · simpa [scan_best] using hlt
  | cons c l ih =>
    rw [scan_best]
    have hm : m ∈ v1 ++ m :: v2 ++ c :: l := by simp
    have hc : c ∈ v1 ++ m :: v2 ++ c :: l := by simp
    have hsub : ∀ q ∈ v1 ++ m :: v2, q ∈ v1 ++ m :: v2 ++ c :: l := fun q hq =>
      List.mem_append_left _ hq
    by_cases hb : g c m < 0
    · simp only [hb, decide_True, if_true]
      have e : v1 ++ m :: v2 ++ c :: l = (v1 ++ m :: v2) ++ c :: [] ++ l := by simp
      rw [e] at hanti htrans ⊢
      refine ih (v1 ++ m :: v2) [] c hanti htrans ?_ ?_
      · intro q hq
        rcases List.mem_append.1 hq with hq | hq
        · exact htrans c (by simp) m (by simp) q
            (List.mem_append_left _ (List.mem_append_left _ hq)) (le_of_lt hb) (hle q hq)
        · rw [List.mem_singleton] at hq
          subst hq
          by_contra hcon
          have h1 : 0 < g q q := by omega
          have := (hanti q (by simp) q (by simp)).2 h1
          omega
      · intro q hq
        have hq1 : q ∈ (v1 ++ m :: v2) ++ c :: [] ++ l :=
          List.mem_append_left _ (List.mem_append_left _ hq)
        have hmq : g m q ≤ 0 := hle q hq
        by_contra hcon
        have h1 : ¬ g c q < 0 := fun hlt2 => hcon ((hanti c (by simp) q hq1).1 hlt2)
        have h2 : g q c ≤ 0 := by
          by_contra h3
          have h4 : 0 < g q c := by omega
          exact hcon h4
        have h5 : g m c ≤ 0 := htrans m (by simp) q hq1 c (by simp) hmq h2
        have h6 : 0 < g m c := (hanti c (by simp) m (by simp)).1 hb
        omega
    · simp only [hb, decide_False, Bool.false_eq_true, if_false]
      have e : v1 ++ m :: v2 ++ c :: l = v1 ++ m :: (v2 ++ [c]) ++ l := by simp
      rw [e] at hanti htrans ⊢
      refine ih v1 (v2 ++ [c]) m hanti htrans ?_ hlt
      intro q hq
      have hq' : q ∈ v1 ++ m :: v2 ∨ q = c := by
        simp only [List.mem_append, List.mem_cons, List.mem_singleton] at hq ⊢
        tauto
      rcases hq' with hq' | rfl
      · exact hle q hq'
      · by_contra hcon
        have h1 : 0 < g m q := by omega
        exact hb ((hanti q (by simp) m (by simp)).2 h1)

theorem scan_best_max_eq (h : Heap) (cmp : Cmp) (m : Ptr) (l : List Ptr) :
    scan_best (fun c m => decide (cmp (h.node c).data (h.node m).data > 0)) m l =
      scan_best (fun c m => decide (-cmp (h.node c).data (h.node m).data < 0)) m l := by
  have e : (fun c m => decide (cmp (h.node c).data (h.node m).data > 0)) =
      fun c m => decide (-cmp (h.node c).data (h.node m).data < 0) := by
    funext c m
    simp
  rw [e]

theorem Ring.range {h : Heap} {head : Ptr} {l1 : List Ptr} {start : Ptr} {mid : List Ptr}
    {end_ : Ptr} {l2 : List Ptr} (hr : Ring h head (l1 ++ start :: (mid ++ end_ :: l2))) :
    linked h start mid end_ ∧ end_ ∉ mid ∧ start ∉ mid := by
  obtain ⟨hnd, -, hl⟩ := hr
  rw [linked_append, linked_append] at hl
  have h1 : (start :: (mid ++ end_ :: l2)).Nodup :=
    (List.nodup_append.1 (List.nodup_cons.1 hnd).2).2.1
  simp only [List.nodup_cons, List.mem_append, List.mem_cons, not_or] at h1
  have h2 := (List.nodup_append.1 h1.2).2.2
  exact ⟨hl.2.1, fun hm => h2 hm (by simp), h1.1.1⟩

theorem TotalPreorderOn.nodes {h : Heap} {cmp : Cmp} {l : List Ptr}
    (hord : TotalPreorderOn cmp (payloads h l)) :
    (∀ a ∈ l, ∀ b ∈ l, (cmp (h.node a).data (h.node b).data < 0 ↔
        0 < cmp (h.node b).data (h.node a).data)) ∧
      ∀ a ∈ l, ∀ b ∈ l, ∀ c ∈ l, cmp (h.node a).data (h.node b).data ≤ 0 →
        cmp (h.node b).data (h.node c).data ≤ 0 → cmp (h.node a).data (h.node c).data ≤ 0 := by
  have hm : ∀ a ∈ l, (h.node a).data ∈ payloads h l := fun a ha =>
    List.mem_map_of_mem (fun p => (h.node p).data) ha
  exact ⟨fun a ha b hb => hord.1 _ (hm a ha) _ (hm b hb),
    fun a ha b hb c hc => hord.2 _ (hm a ha) _ (hm b hb) _ (hm c hc)⟩

/-! ## Destruction -/

theorem WellFormed.setData_off {h : Heap} {head : Ptr} {ps : List Ptr} {xs : List Bytes}
    (hwf : WellFormed h head ps xs) (n : Ptr) (d : Data) (hn : n ∉ head :: ps) :
    WellFormed (h.setData n d) head ps xs := by
  obtain ⟨⟨hnd, hal, hl⟩, hd, hs, hp⟩ := hwf
  have hne : ∀ q ∈ head :: ps, q ≠ n := fun q hq e => hn (e ▸ hq)
  refine ⟨⟨hnd, fun p hp => by simpa using hal p hp, ?_⟩, ?_, ?_, ?_⟩
  · exact linked_frame (fun q _ => by simp) (fun q _ => by simp) hl
  · simp [hne head (by simp), hd]
  · simpa using hs
  · rw [← hp]
    apply payloads_congr
    intro q hq
    simp [hne q (List.mem_cons_of_mem _ hq)]

theorem free_list_loop_linked (h : Heap) (head : Ptr) (l : List Ptr) (b : Ptr)
    (hl : linked h head l b) (hh : head ∉ l) (k : Nat) :
    free_list_loop head (l.length + k + 1) h (h.node b).prev =
      some (h, l.reverse.map fun p => (p, (h.node p).data)) := by
  induction l using List.reverseRecOn generalizing b with
  | nil =>
    simp only [linked] at hl
    simp [free_list_loop, hl.2]
  | append_singleton m u ih =>
    rw [linked_snoc] at hl
    simp only [List.mem_append, List.mem_singleton, not_or] at hh
    have e : (m ++ [u]).length + k + 1 = (m.length + k + 1) + 1 := by simp; omega
    rw [e, hl.2.2, free_list_loop, if_neg (Ne.symm hh.2)]
    simp only [free]
    rw [ih u hl.1 hh.1]
    simp

/-! ## The sorted insert -/

theorem insert_scan_linked (h : Heap) (head : Ptr) (d : Data) (cmp : Cmp) (l : List Ptr)
    (b : Ptr) (hl : linked h head l b) (hh : head ∉ l) (k : Nat) :
    ∃ c ∈ head :: l, insert_scan h head d cmp (l.length + k + 1) (h.node b).prev = some c := by
  induction l using List.reverseRecOn generalizing b with
  | nil =>
    simp only [linked] at hl
    exact ⟨head, by simp, by simp [insert_scan, hl.2]⟩
  | append_singleton m u ih =>
    rw [linked_snoc] at hl
    simp only [List.mem_append, List.mem_singleton, not_or] at hh
    have e : (m ++ [u]).length + k + 1 = (m.length + k + 1) + 1 := by simp; omega
    rw [e, hl.2.2, insert_scan]
    by_cases hc : u ≠ head ∧ cmp d (h.node u).data < 0
    · rw [if_pos hc]
      obtain ⟨c, hc1, hc2⟩ := ih u hl.1 hh.1
      exact ⟨c, by simp at hc1 ⊢; tauto, hc2⟩
    · rw [if_neg hc]
      exact ⟨u, by simp, rfl⟩

theorem walk_next_frame {h h1 : Heap} (head x : Ptr)
    (hn : ∀ q, q ≠ x → (h1.node q).next = (h.node q).next) (fuel : Nat) (cur : Ptr)
    (l : List Ptr) (hw : walk_next h head fuel cur = some l) (hx : x ∉ l) :
    walk_next h1 head fuel cur = some l := by
  induction fuel generalizing cur l with
  | zero => simp [walk_next] at hw
  | succ fuel ih =>
    rw [walk_next] at hw ⊢
    by_cases hc : cur = head
    · rw [if_pos hc] at hw ⊢; exact hw
    · rw [if_neg hc] at hw ⊢
      cases hrec : walk_next h head fuel (h.node cur).next with
      | none => rw [hrec] at hw; simp at hw
      | some l2 =>
        rw [hrec] at hw
        simp only [Option.map_some', Option.some.injEq] at hw
        subst hw
        simp only [List.mem_cons, not_or] at hx
        rw [hn cur (Ne.symm hx.1), ih _ _ hrec hx.2]
        rfl

theorem Ring.next_mem {h : Heap} {head : Ptr} {ps : List Ptr} (hr : Ring h head ps) {c : Ptr}
    (hc : c ∈ head :: ps) : (h.node c).next ∈ head :: ps := by
  have hl := hr.2.2
  rcases List.mem_cons.1 hc with rfl | hcm
  · have := linked_next_head hl
    cases ps with
    | nil => simp at this; simp [← this]
    | cons p l => simp at this; simp [← this]
  · obtain ⟨l1, l2, rfl⟩ := List.append_of_mem hcm
    rw [linked_append] at hl
    have := linked_next_head hl.2
    cases l2 with
    | nil => simp at this; simp [← this]
    | cons p l => simp at this; simp [← this]

theorem insert_into_sorted_list_success (fuel : Nat) (h : Heap) (head : Ptr) (size : Nat)
    (x : Bytes) (cmp : Cmp) (node_ok buf_ok : Bool) (r : Ptr × Heap)
    (hr : insert_into_sorted_list fuel h head size x cmp node_ok buf_ok = some r)
    (hok : r.1 ≠ NULL) : node_ok = true ∧ buf_ok = true := by
  cases node_ok
  · simp only [insert_into_sorted_list, calloc, Bool.false_eq_true, if_false, if_true,
      Option.some.injEq] at hr
    rw [← hr] at hok
    exact absurd rfl hok
  · cases buf_ok
    · simp only [insert_into_sorted_list, calloc, if_true] at hr
      split at hr
      · rw [Option.some.injEq] at hr
        rw [← hr] at hok
        exact absurd rfl hok
      · rw [Option.some.injEq] at hr
        rw [← hr] at hok
        exact absurd rfl hok
    · exact ⟨rfl, rfl⟩

theorem insert_into_sorted_list_fields (fuel : Nat) (h : Heap) (head : Ptr) (ps : List Ptr)
    (xs : List Bytes) (size : Nat) (x : Bytes) (cmp : Cmp) (hwf : WellFormed h head ps xs)
    (hfuel : ps.length < fuel) :
    ∃ h1, ∃ current ∈ head :: ps,
      insert_into_sorted_list fuel h head size x cmp true true = some (h.brk, h1) ∧
      (∀ q, (h1.node q).next =
        if q = h.brk then (h.node current).next else (h.node q).next) ∧
      (∀ q, (h1.node q).prev =
        if q = (h.node current).next then h.brk
        else if q = h.brk then current else (h.node q).prev) := by
  have hb : ¬ h.brk = 0 := hwf.brk_ne
  have hne : ∀ q ∈ head :: ps, q ≠ h.brk := fun q hq => hwf.1.ne_brk hq
  obtain ⟨k, rfl⟩ : ∃ k, fuel = ps.length + k + 1 := ⟨fuel - ps.length - 1, by omega⟩
  have hl3 : linked (((calloc h true).2.setData h.brk (some (x.take size))).setSize h.brk size)
      head ps head := by
    refine linked_frame (fun q hq => ?_) (fun q hq => ?_) hwf.1.2.2
    · simp [calloc_true_node_ne h q (hne q hq)]
    · have hq' : q ∈ head :: ps := by simp at hq ⊢; tauto
      simp [calloc_true_node_ne h q (hne q hq')]
  obtain ⟨c, hc1, hc2⟩ := insert_scan_linked _ head (some x) cmp ps head hl3
    hwf.1.head_not_mem k
  have hcb : c ≠ h.brk := hne c hc1
  have hnextc : (h.node c).next ∈ head :: ps := hwf.1.next_mem hc1
  have hnb : (h.node c).next ≠ h.brk := hne _ hnextc
  refine ⟨((((((calloc h true).2.setData h.brk (some (x.take size))).setSize h.brk
    size).setNext h.brk (h.node c).next).setPrev h.brk c).setPrev (h.node c).next h.brk),
    c, hc1, ?_, ?_, ?_⟩
  · simp only [insert_into_sorted_list, calloc_true_fst, if_neg hb]
    simp only [Bool.true_eq_false, if_false]
    rw [hc2]
    simp only [setNext_next, setPrev_next, setSize_next, setData_next, if_neg hcb,
      calloc_true_node_ne h c hcb]
  · intro q
    by_cases hq : q = h.brk
    · simp [hq, calloc_true_node_ne h c hcb]
    · simp [hq, calloc_true_node_ne h q hq]
  · intro q
    by_cases hq : q = h.brk
    · subst hq
      simp [calloc_true_node_ne h c hcb, hcb, Ne.symm hnb]
    · simp [hq, hcb, calloc_true_node_ne h c hcb, calloc_true_node_ne h q hq]

/-! ## The stopping point of the sorted insert -/

theorem insert_scan_stop (h h3 : Heap) (head : Ptr) (d : Data) (cmp : Cmp) (l : List Ptr)
    (b : Ptr) (hl : linked h head l b) (hl3 : linked h3 head l b)
    (hd : ∀ q ∈ l, (h3.node q).data = (h.node q).data) (hh : head ∉ l) (k : Nat) :
    ∃ c l1 l2, l = l1 ++ l2 ∧ (head :: l1).getLast? = some c ∧
      (∀ q ∈ l2, cmp d (h.node q).data < 0) ∧
      (c = head ∨ ¬ cmp d (h.node c).data < 0) ∧
      insert_scan h head d cmp (l.length + k + 1) (h.node b).prev = some c ∧
      insert_scan h3 head d cmp (l.length + k + 1) (h3.node b).prev = some c := by
  induction l using List.reverseRecOn generalizing b with
  | nil =>
    simp only [linked] at hl hl3
    exact ⟨head, [], [], rfl, rfl, by simp, Or.inl rfl, by simp [insert_scan, hl.2],
      by simp [insert_scan, hl3.2]⟩
  | append_singleton m u ih =>
    rw [linked_snoc] at hl hl3
    simp only [List.mem_append, List.mem_singleton, not_or] at hh
    have e : (m ++ [u]).length + k + 1 = (m.length + k + 1) + 1 := by simp; omega
    have hdu : (h3.node u).data = (h.node u).data := hd u (by simp)
    have s1 : insert_scan h head d cmp (m.length + k + 1 + 1) u =
        if u ≠ head ∧ cmp d (h.node u).data < 0 then
          insert_scan h head d cmp (m.length + k + 1) (h.node u).prev
        else some u := by rw [insert_scan]
    have s3 : insert_scan h3 head d cmp (m.length + k + 1 + 1) u =
        if u ≠ head ∧ cmp d (h3.node u).data < 0 then
          insert_scan h3 head d cmp (m.length + k + 1) (h3.node u).prev
        else some u := by rw [insert_scan]
    rw [e, hl.2.2, hl3.2.2, s1, s3, hdu]
    by_cases hc : u ≠ head ∧ cmp d (h.node u).data < 0
    · rw [if_pos hc, if_pos hc]
      obtain ⟨c, l1, l2, e1, e2, e3, e4, e5, e6⟩ :=
        ih u hl.1 hl3.1 (fun q hq => hd q (by simp [hq])) hh.1
      refine ⟨c, l1, l2 ++ [u], by rw [e1, List.append_assoc], e2, ?_, e4, e5, e6⟩
      intro q hq
      rcases List.mem_append.1 hq with hq | hq
      · exact e3 q hq
      · rw [List.mem_singleton] at hq
        rw [hq]; exact hc.2
    · rw [if_neg hc, if_neg hc]
      refine ⟨u, m ++ [u], [], by simp, ?_, by simp, Or.inr ?_, rfl, rfl⟩
      · rw [← List.cons_append, List.getLast?_concat]
      · intro hlt
        exact hc ⟨Ne.symm hh.2, hlt⟩

theorem insert_into_sorted_list_stop (fuel : Nat) (h : Heap) (head : Ptr) (ps : List Ptr)
    (xs : List Bytes) (size : Nat) (x : Bytes) (cmp : Cmp) (hwf : WellFormed h head ps xs)
    (hfuel : ps.length < fuel) :
    ∃ h1 current l r,
      insert_into_sorted_list fuel h head size x cmp true true = some (h.brk, h1) ∧
      ps = l ++ r ∧ (head :: l).getLast? = some current ∧
      (∀ q ∈ r, cmp (some x) (h.node q).data < 0) ∧
      (current = head ∨ ¬ cmp (some x) (h.node current).data < 0) ∧
      insert_scan h head (some x) cmp fuel (h.node head).prev = some current ∧
      (∀ q, (h1.node q).next =
        if q = h.brk then (h.node current).next else (h.node q).next) ∧
      (∀ q, (h1.node q).prev =
        if q = (h.node current).next then h.brk
        else if q = h.brk then current else (h.node q).prev) := by
  have hb : ¬ h.brk = 0 := hwf.brk_ne
  have hne : ∀ q ∈ head :: ps, q ≠ h.brk := fun q hq => hwf.1.ne_brk hq
  obtain ⟨k, rfl⟩ : ∃ k, fuel = ps.length + k + 1 := ⟨fuel - ps.length - 1, by omega⟩
  have hl3 : linked (((calloc h true).2.setData h.brk (some (x.take size))).setSize h.brk size)
      head ps head := by
    refine linked_frame (fun q hq => ?_) (fun q hq => ?_) hwf.1.2.2
    · simp [calloc_true_node_ne h q (hne q hq)]
    · have hq' : q ∈ head :: ps := by simp at hq ⊢; tauto
      simp [calloc_true_node_ne h q (hne q hq')]
  obtain ⟨c, l, r, e1, e2, e3, e4, e5, e6⟩ := insert_scan_stop h _ head (some x) cmp ps head
    hwf.1.2.2 hl3
    (fun q hq => by
      have hq' : q ≠ h.brk := hne q (List.mem_cons_of_mem _ hq)
      simp [hq', calloc_true_node_ne h q hq'])
    hwf.1.head_not_mem k
  have hc1 : c ∈ head :: ps := by
    have := List.mem_of_getLast?_eq_some e2
    rw [e1]
    simp only [List.mem_cons, List.mem_append] at this ⊢
    tauto
  have hcb : c ≠ h.brk := hne c hc1
  have hnextc : (h.node c).next ∈ head :: ps := hwf.1.next_mem hc1
  have hnb : (h.node c).next ≠ h.brk := hne _ hnextc
  refine ⟨((((((calloc h true).2.setData h.brk (some (x.take size))).setSize h.brk
    size).setNext h.brk (h.node c).next).setPrev h.brk c).setPrev (h.node c).next h.brk),
    c, l, r, ?_, e1, e2, e3, e4, e5, ?_, ?_⟩
  · simp only [insert_into_sorted_list, calloc_true_fst, if_neg hb]
    simp only [Bool.true_eq_false, if_false]
    rw [e6]
    simp only [setNext_next, setPrev_next, setSize_next, setData_next, if_neg hcb,
      calloc_true_node_ne h c hcb]
  · intro q
    by_cases hq : q = h.brk
    · simp [hq, calloc_true_node_ne h c hcb]
    · simp [hq, calloc_true_node_ne h q hq]
  · intro q
    by_cases hq : q = h.brk
    · subst hq
      simp [calloc_true_node_ne h c hcb, hcb, Ne.symm hnb]
    · simp [hq, hcb, calloc_true_node_ne h c hcb, calloc_true_node_ne h q hq]

/-! ## The claims -/

/-- C1 (ring invariant, violated by the sorted insert): on the empty list made
by `create_empty_list`, one successful `insert_into_sorted_list` of the
payload `[5]` returns the new node `2` and leaves a state in which following
`next` from the head visits no node while following `prev` visits the new
node; no sequence of live nodes satisfies the ring invariant in that state. -/
theorem insert_into_sorted_list_breaks_ring :
    ∃ h, insert_into_sorted_list 4 (create_empty_list Heap.init true).2
        (create_empty_list Heap.init true).1 1 [5] cmp_byte true true = some (2, h) ∧
      forward 4 h 1 = some [] ∧ backward 4 h 1 = some [2] ∧ ∀ ps, ¬ Ring h 1 ps := by
  refine ⟨_, rfl, by decide, by decide, ?_⟩
  intro ps hr
  cases ps with
  | nil => exact absurd hr.2.2.2 (by decide)
  | cons p l =>
    have h1 : p = 1 := hr.2.2.1.1.symm.trans (by decide)
    subst h1
    exact absurd hr.1 (by simp)

/-- C2 (sorted-insert invariant, violated): inserting the payloads 5, 1, 3 one
by one with `insert_into_sorted_list` and the numeric comparator into a fresh
empty list leaves a forward traversal that yields no payload at all (not
1, 3, 5); the backward traversal yields 3, 1 and the node holding 5 is
unreachable. -/
theorem insert_into_sorted_list_5_1_3 :
    (insert_all 8 1 cmp_byte (create_empty_list Heap.init true).2 [[5], [1], [3]]).map
      (fun h => ((forward 8 h 1).map (payloads h), (backward 8 h 1).map (payloads h))) =
      some (some [], some [some [3], some [1]]) := by
  decide

/-- C3 (whole-list minimum, violated): on the well-formed list holding the
payloads 2, 1 (nodes `2`, `3`), `get_min_from_list` with the numeric comparator
returns node `2`, although the payload of the live node `3` compares strictly
less than the payload of node `2`. -/
theorem get_min_from_list_misses_tail :
    WellFormed (push_all 1 (create_empty_list Heap.init true).2 [[2], [1]]).2 1 [2, 3]
        [[2], [1]] ∧
      get_min_from_list 8 (push_all 1 (create_empty_list Heap.init true).2 [[2], [1]]).2 1
        cmp_byte = some 2 ∧
      cmp_byte ((push_all 1 (create_empty_list Heap.init true).2 [[2], [1]]).2.node 3).data
        ((push_all 1 (create_empty_list Heap.init true).2 [[2], [1]]).2.node 2).data < 0 := by
  decide

/-- C4 (whole-list maximum, violated): on the well-formed list holding the
payloads 1, 2 (nodes `2`, `3`), `get_max_from_list` with the numeric comparator
returns node `2`, although the payload of the live node `3` compares strictly
greater than the payload of node `2`. -/
theorem get_max_from_list_misses_tail :
    WellFormed (push_all 1 (create_empty_list Heap.init true).2 [[1], [2]]).2 1 [2, 3]
        [[1], [2]] ∧
      get_max_from_list 8 (push_all 1 (create_empty_list Heap.init true).2 [[1], [2]]).2 1
        cmp_byte = some 2 ∧
      cmp_byte ((push_all 1 (create_empty_list Heap.init true).2 [[1], [2]]).2.node 3).data
        ((push_all 1 (create_empty_list Heap.init true).2 [[1], [2]]).2.node 2).data > 0 := by
  decide

/-- C5 (push appends at the tail): on a well-formed list with live nodes `ps`
holding the payloads `xs`, a `push_into_list` of a payload `x` of byte length
`size` that returns a non-null node `adding` leaves `adding` holding a copy of
`x` with size field `size`; the list is well formed with live nodes
`ps ++ [adding]` holding `xs ++ [x]` (so the ring invariant holds), the forward
traversal is `ps ++ [adding]`, the backward traversal its reverse, and
`head.prev` is the returned node. -/
theorem push_into_list_appends (h : Heap) (head : Ptr) (ps : List Ptr) (xs : List Bytes)
    (size : Nat) (x : Bytes) (node_ok buf_ok : Bool) (fuel : Nat) (adding : Ptr) (h1 : Heap)
    (hwf : WellFormed h head ps xs) (hx : x.length = size)
    (hr : push_into_list h head size x node_ok buf_ok = (adding, h1)) (hok : adding ≠ NULL)
    (hfuel : ps.length + 1 < fuel) :
    (h1.node adding).data = some x ∧ (h1.node adding).size = size ∧
      WellFormed h1 head (ps ++ [adding]) (xs ++ [x]) ∧
      forward fuel h1 head = some (ps ++ [adding]) ∧
      (forward fuel h1 head).map (payloads h1) = some ((xs ++ [x]).map some) ∧
      backward fuel h1 head = some (ps ++ [adding]).reverse ∧
      (h1.node head).prev = adding := by
  have hflags := (push_into_list_success h head size x node_ok buf_ok hwf.brk_ne).1
    (by rw [hr]; exact hok)
  obtain ⟨rfl, rfl⟩ := hflags
  have hh : head ≠ h.brk := hwf.1.ne_brk (by simp)
  obtain ⟨e1, -, -, ep, ed, es⟩ := push_into_list_fields h head size x hh hwf.brk_ne
  have hw := push_into_list_wf h head ps xs size x hwf
  rw [hr] at e1 ep ed es hw
  simp only at e1 ep ed es hw
  subst e1
  rw [← hx, List.take_length] at hw
  rw [← hx, List.take_length] at ed
  have hlen : (ps ++ [h.brk]).length < fuel := by simpa using hfuel
  have hf := hw.1.forward_eq hlen
  refine ⟨by simp [ed], by simp [es, hx], hw, hf, ?_, hw.1.backward_eq hlen, by simp [ep]⟩
  rw [hf, Option.map_some', hw.2.2.2]

/-- C5, at a concrete input: pushing the payload `[7]` onto the list holding
1, 2 (nodes `2`, `3`) returns the new node `4`, which becomes `head.prev`; the
list then holds 1, 2, 7 and its forward traversal is `2, 3, 4`. -/
theorem push_into_list_appends_witness :
    (push_into_list (push_all 1 (create_empty_list Heap.init true).2 [[1], [2]]).2 1 1 [7]
        true true).1 = 4 ∧
      WellFormed (push_into_list (push_all 1 (create_empty_list Heap.init true).2
        [[1], [2]]).2 1 1 [7] true true).2 1 [2, 3, 4] [[1], [2], [7]] ∧
      forward 4 (push_into_list (push_all 1 (create_empty_list Heap.init true).2
        [[1], [2]]).2 1 1 [7] true true).2 1 = some [2, 3, 4] ∧
      ((push_into_list (push_all 1 (create_empty_list Heap.init true).2
        [[1], [2]]).2 1 1 [7] true true).2.node 1).prev = 4 :=
  have hc := push_into_list_appends
    (push_all 1 (create_empty_list Heap.init true).2 [[1], [2]]).2 1 [2, 3] [[1], [2]] 1 [7]
    true true 4 4
    (push_into_list (push_all 1 (create_empty_list Heap.init true).2 [[1], [2]]).2 1 1 [7]
      true true).2
    (by decide) (by decide) rfl (by decide) (by decide)
  ⟨rfl, hc.2.2.1, hc.2.2.2.1, hc.2.2.2.2.2.2⟩

/-- C6 (pop removes the tail): on a well-formed list, `pop_from_list` returns
null and leaves the heap unchanged when there is no live node; when the live
nodes are `l ++ [t]` holding the payloads `ys ++ [y]` it returns `t`, which
still holds `y` and its size, and the list is well formed with live nodes `l`
holding `ys` (ring invariant kept), which is its forward traversal. -/
theorem pop_from_list_removes_tail (h : Heap) (head : Ptr) (ps : List Ptr) (xs : List Bytes)
    (fuel : Nat) (hwf : WellFormed h head ps xs) (hfuel : ps.length < fuel) :
    (ps = [] → pop_from_list h head = (NULL, h)) ∧
      ∀ l t ys y, ps = l ++ [t] → xs = ys ++ [y] →
        (pop_from_list h head).1 = t ∧
        ((pop_from_list h head).2.node t).data = some y ∧
        ((pop_from_list h head).2.node t).size = (h.node t).size ∧
        WellFormed (pop_from_list h head).2 head l ys ∧
        forward fuel (pop_from_list h head).2 head = some l := by
  refine ⟨?_, ?_⟩
  · rintro rfl
    exact pop_from_list_nil h head hwf.1
  · rintro l t ys y rfl rfl
    obtain ⟨e1, hw, ed, es⟩ := pop_from_list_snoc h head l t ys y hwf
    refine ⟨e1, ed, es, hw, hw.1.forward_eq ?_⟩
    simp at hfuel; omega

/-- C6, at the input of the scenario: after pushing 1, 2, 3 the pop returns
the node holding 3 and the list traverses as 1, 2. -/
theorem pop_from_list_removes_tail_witness :
    (pop_from_list (push_all 1 (create_empty_list Heap.init true).2 [[1], [2], [3]]).2 1).1 = 4 ∧
      ((pop_from_list (push_all 1 (create_empty_list Heap.init true).2
        [[1], [2], [3]]).2 1).2.node 4).data = some [3] ∧
      WellFormed (pop_from_list (push_all 1 (create_empty_list Heap.init true).2
        [[1], [2], [3]]).2 1).2 1 [2, 3] [[1], [2]] :=
  have hc := (pop_from_list_removes_tail
    (push_all 1 (create_empty_list Heap.init true).2 [[1], [2], [3]]).2 1 [2, 3, 4]
    [[1], [2], [3]] 4 (by decide) (by decide)).2 [2, 3] 4 [[1], [2]] [3] rfl rfl
  ⟨hc.1, hc.2.1, hc.2.2.2.1⟩

/-- C7 (push/pop duality): on a well-formed list with live nodes `ps` holding
`xs`, pushing the payloads `ys` and then calling `pop_from_list` as many times
returns exactly the pushed nodes in reverse order, holding the payloads of `ys`
in reverse; no pop returns null; afterwards the list is well formed with the
live nodes `ps` holding `xs`, and its forward traversal is `ps` as before. -/
theorem push_pop_duality (h : Heap) (head : Ptr) (ps : List Ptr) (xs ys : List Bytes)
    (fuel : Nat) (hwf : WellFormed h head ps xs) (hfuel : ps.length < fuel) :
    (pop_n head (push_all head h ys).2 ys.length).1 = (push_all head h ys).1.reverse ∧
      payloads (pop_n head (push_all head h ys).2 ys.length).2
        (pop_n head (push_all head h ys).2 ys.length).1 = ys.reverse.map some ∧
      (∀ r ∈ (pop_n head (push_all head h ys).2 ys.length).1, r ≠ NULL) ∧
      WellFormed (pop_n head (push_all head h ys).2 ys.length).2 head ps xs ∧
      forward fuel (pop_n head (push_all head h ys).2 ys.length).2 head = some ps ∧
      forward fuel h head = some ps := by
  obtain ⟨hw1, hlen⟩ := push_all_wf head ys h ps xs hwf
  obtain ⟨e1, hw2, hp⟩ := pop_n_wf head (push_all head h ys).1 ys _ ps xs hw1 hlen
  rw [hlen] at e1 hw2 hp
  refine ⟨e1, ?_, ?_, hw2, hw2.1.forward_eq hfuel, hwf.1.forward_eq hfuel⟩
  · rw [e1]
    unfold payloads at hp ⊢
    rw [List.map_reverse, hp, List.map_reverse]
  · intro r hr
    rw [e1, List.mem_reverse] at hr
    exact (hw1.1.2.1 r (by simp [hr])).1

/-- C7, at a concrete input: pushing 1, 2, 3 onto the list holding 9 and
popping three times. -/
theorem push_pop_duality_witness :
    (pop_n 1 (push_all 1 (push_all 1 (create_empty_list Heap.init true).2 [[9]]).2
        [[1], [2], [3]]).2 3).1 = [5, 4, 3] ∧
      WellFormed (pop_n 1 (push_all 1 (push_all 1 (create_empty_list Heap.init true).2
        [[9]]).2 [[1], [2], [3]]).2 3).2 1 [2] [[9]] :=
  have hc := push_pop_duality (push_all 1 (create_empty_list Heap.init true).2 [[9]]).2 1 [2]
    [[9]] [[1], [2], [3]] 2 (by decide) (by decide)
  ⟨hc.1, hc.2.2.2.1⟩

/-- C8 (unshift ordering): on a well-formed list with live nodes `ps` holding
`xs`, an `unshift_into_list` of a payload `x` of byte length `size` that
returns a non-null node `adding` leaves the list well formed with live nodes
`adding :: ps` holding `x :: xs` (ring invariant kept), `head.next` is the new
node and the forward traversal is `adding :: ps`; hence unshifting `a`, `b`,
`c` in that order leaves a well-formed list whose payloads are `c, b, a`
followed by `xs`. -/
theorem unshift_into_list_prepends (h : Heap) (head : Ptr) (ps : List Ptr) (xs : List Bytes)
    (size : Nat) (x : Bytes) (node_ok buf_ok : Bool) (fuel : Nat) (adding : Ptr) (h1 : Heap)
    (hwf : WellFormed h head ps xs) (hx : x.length = size)
    (hr : unshift_into_list h head size x node_ok buf_ok = (adding, h1)) (hok : adding ≠ NULL)
    (hfuel : ps.length + 1 < fuel) :
    (WellFormed h1 head (adding :: ps) (x :: xs) ∧
      forward fuel h1 head = some (adding :: ps) ∧
      (forward fuel h1 head).map (payloads h1) = some ((x :: xs).map some) ∧
      (h1.node head).next = adding) ∧
      ∀ a b c : Bytes,
        WellFormed (unshift_all head h [a, b, c]).2 head
          ((unshift_all head h [a, b, c]).1.reverse ++ ps) (c :: b :: a :: xs) ∧
        (forward (fuel + 2) (unshift_all head h [a, b, c]).2 head).map
          (payloads (unshift_all head h [a, b, c]).2) = some ((c :: b :: a :: xs).map some) := by
  have hflags := (unshift_into_list_success h head size x node_ok buf_ok hwf.brk_ne).1
    (by rw [hr]; exact hok)
  obtain ⟨rfl, rfl⟩ := hflags
  have hh : head ≠ h.brk := hwf.1.ne_brk (by simp)
  obtain ⟨e1, -, en, -, -, -⟩ := unshift_into_list_fields h head size x hh hwf.brk_ne
  have hw := unshift_into_list_wf h head ps xs size x hwf
  rw [hr] at e1 en hw
  simp only at e1 en hw
  subst e1
  rw [← hx, List.take_length] at hw
  have hlen : (h.brk :: ps).length < fuel := by simpa using hfuel
  have hf := hw.1.forward_eq hlen
  refine ⟨⟨hw, hf, ?_, by simp [en]⟩, ?_⟩
  · rw [hf, Option.map_some', hw.2.2.2]
  · intro a b c
    have h3 := unshift_all_wf head [a, b, c] h ps xs hwf
    have e3 : [a, b, c].reverse ++ xs = c :: b :: a :: xs := rfl
    rw [e3] at h3
    refine ⟨h3, ?_⟩
    have hl3 : ((unshift_all head h [a, b, c]).1.reverse ++ ps).length < fuel + 2 := by
      simp [unshift_all]; omega
    rw [h3.1.forward_eq hl3, Option.map_some', h3.2.2.2]

/-- C8, at a concrete input: unshifting 1, 2, 3 onto the list holding 9. -/
theorem unshift_into_list_prepends_witness :
    (forward 5 (unshift_all 1 (push_all 1 (create_empty_list Heap.init true).2 [[9]]).2
        [[1], [2], [3]]).2 1).map
      (payloads (unshift_all 1 (push_all 1 (create_empty_list Heap.init true).2 [[9]]).2
        [[1], [2], [3]]).2) = some [some [3], some [2], some [1], some [9]] :=
  ((unshift_into_list_prepends (push_all 1 (create_empty_list Heap.init true).2 [[9]]).2 1 [2]
    [[9]] 1 [1] true true 3 3
    (unshift_into_list (push_all 1 (create_empty_list Heap.init true).2 [[9]]).2 1 1 [1]
      true true).2
    (by decide) (by decide) rfl (by decide) (by decide)).2 [1] [2] [3]).2

/-- C9 (remove by identity): on a well-formed list with live nodes `ps` holding
`xs`, `remove_from_list` terminates and returns the node `n` exactly when `n`
is a live node.  When `n` is live, the list is afterwards well formed with live
nodes `ps.erase n` (the other nodes in their order, ring invariant kept)
holding the remaining payloads, `n` still holds its payload and size, and a
second `remove_from_list` of `n` returns null.  When `n` is not live the result
is null and the heap is unchanged. -/
theorem remove_from_list_by_identity (h : Heap) (head : Ptr) (ps : List Ptr)
    (xs : List Bytes) (n : Ptr) (fuel : Nat) (hwf : WellFormed h head ps xs)
    (hfuel : ps.length < fuel) :
    ∃ r h1, remove_from_list fuel h head n = some (r, h1) ∧
      ((r = n ∧ n ≠ NULL) ↔ n ∈ ps) ∧
      (n ∈ ps →
        WellFormed h1 head (ps.erase n) (xs.eraseIdx (ps.indexOf n)) ∧
        forward fuel h1 head = some (ps.erase n) ∧
        (h1.node n).data = (h.node n).data ∧ (h1.node n).size = (h.node n).size ∧
        remove_from_list fuel h1 head n = some (NULL, h1)) ∧
      (n ∉ ps → r = NULL ∧ h1 = h) := by
  by_cases hn : n ∈ ps
  · obtain ⟨h1, e1, hw1⟩ := remove_from_list_mem h head n ps xs fuel hwf hn hfuel
    have hnn : n ≠ NULL := (hwf.1.2.1 n (List.mem_cons_of_mem _ hn)).1
    have hle : (ps.erase n).length < fuel :=
      lt_of_le_of_lt (List.erase_sublist n ps).length_le hfuel
    have hnd : ps.Nodup := (List.nodup_cons.1 hwf.1.1).2
    refine ⟨n, h1, e1, ⟨fun _ => hn, fun _ => ⟨rfl, hnn⟩⟩, fun _ => ⟨hw1, hw1.1.forward_eq hle,
      (remove_loop_payload h head n fuel _ _ e1 n).1,
      (remove_loop_payload h head n fuel _ _ e1 n).2,
      remove_from_list_not_found h1 head n _ fuel hw1.1 hnd.not_mem_erase hle⟩,
      fun hc => absurd hn hc⟩
  · refine ⟨NULL, h, remove_from_list_not_found h head n ps fuel hwf.1 hn hfuel,
      ⟨fun hc => absurd hc.1.symm hc.2, fun hc => absurd hc hn⟩, fun hc => absurd hc hn,
      fun _ => ⟨rfl, rfl⟩⟩

/-- C9, at a concrete input: removing the middle node of the list holding
1, 2, 3. -/
theorem remove_from_list_by_identity_witness :
    ∃ r h1, remove_from_list 4 (push_all 1 (create_empty_list Heap.init true).2
        [[1], [2], [3]]).2 1 3 = some (r, h1) ∧
      ((r = 3 ∧ (3 : Ptr) ≠ NULL) ↔ 3 ∈ [2, 3, 4]) ∧
      (3 ∈ [2, 3, 4] →
        WellFormed h1 1 ([2, 3, 4].erase 3) ([[1], [2], [3]].eraseIdx ([2, 3, 4].indexOf 3)) ∧
        forward 4 h1 1 = some ([2, 3, 4].erase 3) ∧
        (h1.node 3).data = ((push_all 1 (create_empty_list Heap.init true).2
          [[1], [2], [3]]).2.node 3).data ∧
        (h1.node 3).size = ((push_all 1 (create_empty_list Heap.init true).2
          [[1], [2], [3]]).2.node 3).size ∧
        remove_from_list 4 h1 1 3 = some (NULL, h1)) ∧
      (3 ∉ [2, 3, 4] → r = NULL ∧
        h1 = (push_all 1 (create_empty_list Heap.init true).2 [[1], [2], [3]]).2) :=
  remove_from_list_by_identity (push_all 1 (create_empty_list Heap.init true).2
    [[1], [2], [3]]).2 1 [2, 3, 4] [[1], [2], [3]] 3 4 (by decide) (by decide)

/-- C10 (find with a strict operator): on a well-formed list with live nodes
`ps`, for `n ≥ 1` and an operator among LT, GT, NE, `find_from_list` terminates
and returns the `n`-th node, in forward traversal order, among the live nodes
whose `cmp(node.payload, key)` is `< 0` (resp. `> 0`, `≠ 0`), and it returns
null exactly when fewer than `n` live nodes match. -/
theorem find_from_list_strict (h : Heap) (head : Ptr) (ps : List Ptr) (xs : List Bytes)
    (key : Data) (cmp : Cmp) (op : list_comparison_operator) (n : Int) (fuel : Nat)
    (hwf : WellFormed h head ps xs) (hn : 1 ≤ n)
    (hop : op = LIST_CMP_LT ∨ op = LIST_CMP_GT ∨ op = LIST_CMP_NE)
    (hfuel : ps.length < fuel) :
    find_from_list fuel h head key cmp op n =
        some ((matching h key cmp op ps).getD (n - 1).toNat NULL) ∧
      (find_from_list fuel h head key cmp op n = some NULL ↔
        ((matching h key cmp op ps).length : Int) < n) := by
  obtain ⟨k, rfl⟩ : ∃ k, fuel = ps.length + k + 1 := ⟨fuel - ps.length - 1, by omega⟩
  have hf : find_from_list (ps.length + k + 1) h head key cmp op n =
      some ((matching h key cmp op ps).getD (n - 1).toNat NULL) := by
    unfold find_from_list
    rw [find_loop_linked h head key cmp op n hop ps head hwf.1.2.2 hwf.1.head_not_mem 0
      (by omega) k]
    simp
  refine ⟨hf, ?_⟩
  rw [hf, Option.some.injEq, getD_eq_null_iff]
  · omega
  · intro p hp
    exact (hwf.1.2.1 p (List.mem_cons_of_mem _ (matching_subset h key cmp op ps p hp))).1

/-- C10, at a concrete input: on the list holding 10, 20, 30 the second node
whose payload differs from the key 20 is the node holding 30. -/
theorem find_from_list_strict_witness :
    find_from_list 4 (push_all 1 (create_empty_list Heap.init true).2 [[10], [20], [30]]).2 1
        (some [20]) cmp_byte LIST_CMP_NE 2 = some 4 :=
  (find_from_list_strict (push_all 1 (create_empty_list Heap.init true).2
    [[10], [20], [30]]).2 1 [2, 3, 4] [[10], [20], [30]] (some [20]) cmp_byte LIST_CMP_NE 2 4
    (by decide) (by decide) (by decide) (by decide)).1

/-- C11 (find with EQ, LE or GE counts every node): on a well-formed list with
live nodes `ps`, for `n ≥ 1` and an operator among EQ, LE, GE, whatever the
comparator and the key, `find_from_list` terminates and returns the `n`-th
live node in forward traversal order, and it returns null exactly when the
list has fewer than `n` live nodes. -/
theorem find_from_list_unconditional (h : Heap) (head : Ptr) (ps : List Ptr)
    (xs : List Bytes) (key : Data) (cmp : Cmp) (op : list_comparison_operator) (n : Int)
    (fuel : Nat) (hwf : WellFormed h head ps xs) (hn : 1 ≤ n)
    (hop : op = LIST_CMP_EQ ∨ op = LIST_CMP_LE ∨ op = LIST_CMP_GE)
    (hfuel : ps.length < fuel) :
    find_from_list fuel h head key cmp op n = some (ps.getD (n - 1).toNat NULL) ∧
      (find_from_list fuel h head key cmp op n = some NULL ↔ (ps.length : Int) < n) := by
  obtain ⟨k, rfl⟩ : ∃ k, fuel = ps.length + k + 1 := ⟨fuel - ps.length - 1, by omega⟩
  have hfil : (ps.filter fun p => find_counts (cmp (h.node p).data key) op) = ps :=
    List.filter_eq_self.2 fun p _ => find_counts_unconditional op _ hop
  have hf : find_from_list (ps.length + k + 1) h head key cmp op n =
      some (ps.getD (n - 1).toNat NULL) := by
    unfold find_from_list
    rw [find_loop_counted h head key cmp op n ps head hwf.1.2.2 hwf.1.head_not_mem 0
      (by omega) k, hfil]
    simp
  refine ⟨hf, ?_⟩
  rw [hf, Option.some.injEq, getD_eq_null_iff]
  · omega
  · intro p hp
    exact (hwf.1.2.1 p (List.mem_cons_of_mem _ hp)).1

/-- C11, at the input of the scenario: GE with `n = 2` on the list holding
10, 20, 30 against the key 15 returns the node holding 20. -/
theorem find_from_list_unconditional_witness :
    find_from_list 4 (push_all 1 (create_empty_list Heap.init true).2 [[10], [20], [30]]).2 1
        (some [15]) cmp_byte LIST_CMP_GE 2 = some 3 ∧
      ((push_all 1 (create_empty_list Heap.init true).2 [[10], [20], [30]]).2.node 3).data =
        some [20] :=
  ⟨(find_from_list_unconditional (push_all 1 (create_empty_list Heap.init true).2
    [[10], [20], [30]]).2 1 [2, 3, 4] [[10], [20], [30]] (some [15]) cmp_byte LIST_CMP_GE 2 4
    (by decide) (by decide) (by decide) (by decide)).1, by decide⟩

/-- C20 (find with a non-positive count): on a well-formed list, for every
key, comparator and operator, `find_from_list` returns null for every `n`
when there is no live node, and for `n ≤ 0` it returns the first live node
(`head.next`) of a non-empty list, whether or not that node is counted under
the operator. -/
theorem find_from_list_nonpositive (h : Heap) (head : Ptr) (ps : List Ptr) (xs : List Bytes)
    (key : Data) (cmp : Cmp) (op : list_comparison_operator) (fuel : Nat)
    (hwf : WellFormed h head ps xs) (hfuel : 0 < fuel) :
    (ps = [] → ∀ n, find_from_list fuel h head key cmp op n = some NULL) ∧
      ∀ p l, ps = p :: l → ∀ n : Int, n ≤ 0 →
        find_from_list fuel h head key cmp op n = some p ∧ (h.node head).next = p := by
  obtain ⟨k, rfl⟩ : ∃ k, fuel = k + 1 := ⟨fuel - 1, by omega⟩
  refine ⟨?_, ?_⟩
  · rintro rfl n
    have hl := hwf.1.2.2
    simp only [linked] at hl
    simp [find_from_list, find_loop, hl.1]
  · rintro p l rfl n hn
    have hl := hwf.1.2.2
    simp only [linked] at hl
    have hp : p ≠ head := by
      intro e
      have := hwf.1.1
      simp [e] at this
    unfold find_from_list
    rw [hl.1.1]
    exact ⟨find_loop_nonpositive h head key cmp op n hn k p hp, rfl⟩

/-- C20, at a concrete input: GT with `n = 0` on the list holding 10, 20, 30
against the key 15 returns the node holding 10, which is not greater than the
key. -/
theorem find_from_list_nonpositive_witness :
    find_from_list 4 (push_all 1 (create_empty_list Heap.init true).2 [[10], [20], [30]]).2 1
        (some [15]) cmp_byte LIST_CMP_GT 0 = some 2 :=
  ((find_from_list_nonpositive (push_all 1 (create_empty_list Heap.init true).2
    [[10], [20], [30]]).2 1 [2, 3, 4] [[10], [20], [30]] (some [15]) cmp_byte LIST_CMP_GT 4
    (by decide) (by decide)).2 2 [3, 4] rfl 0 (by decide)).1

/-- C12 (as stated, refuted): under the comparator that answers "less" for
every pair, the payloads 1, 2 are strictly ascending; on the well-formed list
that holds them swapped (2, 1 in nodes `2`, `3`) `pick_not_sorted_from_list`
returns null and not node `2`, the first node of the swapped pair. -/
theorem pick_not_sorted_from_list_swap_any_comparator :
    strictly_ascending cmp_always_less [[1], [2]] ∧
      WellFormed (push_all 1 (create_empty_list Heap.init true).2 [[2], [1]]).2 1 [2, 3]
        [[2], [1]] ∧
      pick_not_sorted_from_list 4 (push_all 1 (create_empty_list Heap.init true).2
        [[2], [1]]).2 1 cmp_always_less = some NULL ∧
      pick_not_sorted_from_list 4 (push_all 1 (create_empty_list Heap.init true).2
        [[2], [1]]).2 1 cmp_always_less ≠ some 2 := by
  decide

/-- C12 (amended; sortedness check): on a well-formed list with live nodes
`ps`, for every comparator, `pick_not_sorted_from_list` terminates; it returns
null exactly when every pair of adjacent live nodes `(a, b)` has
`cmp(a, b) ≤ 0`, in particular for a list with at most one live node;
otherwise it returns the first live node in traversal order whose payload
compares greater than its successor's.  When the payloads are those of a
strictly ascending sequence with two adjacent elements `a`, `b` swapped, and
the comparator is a total preorder on them, it returns the first node of the
swapped pair. -/
theorem pick_not_sorted_from_list_spec (h : Heap) (head : Ptr) (ps : List Ptr)
    (xs : List Bytes) (cmp : Cmp) (fuel : Nat) (hwf : WellFormed h head ps xs)
    (hfuel : ps.length < fuel) :
    (pick_not_sorted_from_list fuel h head cmp = some NULL ↔ adjacent_sorted h cmp ps) ∧
      (ps.length ≤ 1 → pick_not_sorted_from_list fuel h head cmp = some NULL) ∧
      (¬ adjacent_sorted h cmp ps →
        ∃ l p q r, ps = l ++ p :: q :: r ∧ adjacent_sorted h cmp (l ++ [p]) ∧
          0 < cmp (h.node p).data (h.node q).data ∧
          pick_not_sorted_from_list fuel h head cmp = some p) ∧
      ∀ pl p q pr ys a b zs, ps = pl ++ p :: q :: pr → xs = ys ++ b :: a :: zs →
        pl.length = ys.length → strictly_ascending cmp (ys ++ a :: b :: zs) →
        TotalPreorderOn cmp (xs.map some) →
        pick_not_sorted_from_list fuel h head cmp = some p := by
  have he := pick_not_sorted_from_list_eq h head ps cmp fuel hwf.1 hfuel
  have hnn : ∀ p ∈ ps, p ≠ NULL := fun p hp => (hwf.1.2.1 p (List.mem_cons_of_mem _ hp)).1
  have hnull := first_inversion_eq_null h cmp ps hnn
  refine ⟨by rw [he, Option.some.injEq, hnull], ?_, ?_, ?_⟩
  · intro hlen
    rw [he, Option.some.injEq, hnull]
    unfold adjacent_sorted
    match ps, hlen with
    | [], _ => simp [adjacent]
    | [_], _ => simp [adjacent]
  · intro hns
    obtain ⟨l, p, q, r, e, hs, hpq⟩ := first_inversion_exists h cmp ps hns
    refine ⟨l, p, q, r, e, hs, hpq, ?_⟩
    rw [he, e, first_inversion_eq h cmp l p q r hs hpq]
  · rintro pl p q pr ys a b zs rfl rfl hlen hasc hord
    rw [he, swapped_pair_detected h cmp pl p q pr ys a b zs hwf.2.2.2 hlen hasc hord]

/-- C12, at a concrete input: the ascending payloads 10, 20, 30, 40 with 20
and 30 swapped; the check returns the node holding 30. -/
theorem pick_not_sorted_from_list_spec_witness :
    pick_not_sorted_from_list 5
      (push_all 1 (create_empty_list Heap.init true).2 [[10], [30], [20], [40]]).2 1
      cmp_byte = some 3 :=
  (pick_not_sorted_from_list_spec
    (push_all 1 (create_empty_list Heap.init true).2 [[10], [30], [20], [40]]).2 1
    [2, 3, 4, 5] [[10], [30], [20], [40]] cmp_byte 5 (by decide) (by decide)).2.2.2
    [2] 3 4 [5] [[10]] [20] [30] [[40]] rfl rfl rfl (by decide) (by decide)

/-- C13 (minimum over a sub-range): on a well-formed list whose live nodes are
`l1 ++ start :: (mid ++ end_ :: l2)` (so `start ≠ end_` are live and `end_` is
reached from `start` by `next` without passing the sentinel), under a
comparator that is a total preorder on the payloads of the range
`start :: mid`, `get_min_from_part_of_list` terminates and returns a node `m`
of the range whose payload is not greater than any payload of the range,
and no node of the range before `m` has that property. -/
theorem get_min_from_part_of_list_spec (h : Heap) (head : Ptr) (xs : List Bytes) (cmp : Cmp)
    (fuel : Nat) (l1 : List Ptr) (start : Ptr) (mid : List Ptr) (end_ : Ptr) (l2 : List Ptr)
    (hwf : WellFormed h head (l1 ++ start :: (mid ++ end_ :: l2)) xs)
    (hord : TotalPreorderOn cmp (payloads h (start :: mid))) (hfuel : mid.length < fuel) :
    ∃ m a b, get_min_from_part_of_list fuel h start end_ cmp = some m ∧
      start :: mid = a ++ m :: b ∧
      (∀ q ∈ start :: mid, cmp (h.node m).data (h.node q).data ≤ 0) ∧
      ∀ q ∈ a, ¬ ∀ q2 ∈ start :: mid, cmp (h.node q).data (h.node q2).data ≤ 0 := by
  obtain ⟨hl, he, -⟩ := hwf.1.range
  obtain ⟨k, rfl⟩ : ∃ k, fuel = mid.length + k + 1 := ⟨fuel - mid.length - 1, by omega⟩
  obtain ⟨hanti, htrans⟩ := hord.nodes
  have hss : cmp (h.node start).data (h.node start).data ≤ 0 := by
    by_contra hcon
    have h1 : 0 < cmp (h.node start).data (h.node start).data := by omega
    have := (hanti start (by simp) start (by simp)).2 h1
    omega
  obtain ⟨w1, w2, e, hle, hlt⟩ := scan_best_spec
    (fun c m => cmp (h.node c).data (h.node m).data) mid [] [] start
    (by simpa using hanti) (by simpa using htrans) (by simpa using hss) (by simp)
  simp only [List.nil_append, List.singleton_append] at e hle
  refine ⟨_, w1, w2, get_min_loop_linked h end_ cmp mid start hl he start k, e, hle, ?_⟩
  intro q hq hall
  have hm : scan_best (fun c m => decide (cmp (h.node c).data (h.node m).data < 0)) start mid ∈
      start :: mid := by rw [e]; simp
  have := hall _ hm
  have := hlt q hq
  omega

/-- C13, at a concrete input: on the list holding 3, 1, 1, 2, 9 the minimum
of the range from the first node up to the last one is the first node that
holds 1. -/
theorem get_min_from_part_of_list_spec_witness :
    get_min_from_part_of_list 4
      (push_all 1 (create_empty_list Heap.init true).2 [[3], [1], [1], [2], [9]]).2 2 6
      cmp_byte = some 3 ∧
    ∃ m a b, get_min_from_part_of_list 4
        (push_all 1 (create_empty_list Heap.init true).2 [[3], [1], [1], [2], [9]]).2 2 6
        cmp_byte = some m ∧
      [2, 3, 4, 5] = a ++ m :: b ∧
      (∀ q ∈ [2, 3, 4, 5], cmp_byte
        ((push_all 1 (create_empty_list Heap.init true).2
          [[3], [1], [1], [2], [9]]).2.node m).data
        ((push_all 1 (create_empty_list Heap.init true).2
          [[3], [1], [1], [2], [9]]).2.node q).data ≤ 0) ∧
      ∀ q ∈ a, ¬ ∀ q2 ∈ [2, 3, 4, 5], cmp_byte
        ((push_all 1 (create_empty_list Heap.init true).2
          [[3], [1], [1], [2], [9]]).2.node q).data
        ((push_all 1 (create_empty_list Heap.init true).2
          [[3], [1], [1], [2], [9]]).2.node q2).data ≤ 0 :=
  ⟨by decide, get_min_from_part_of_list_spec
    (push_all 1 (create_empty_list Heap.init true).2 [[3], [1], [1], [2], [9]]).2 1
    [[3], [1], [1], [2], [9]] cmp_byte 4 [] 2 [3, 4, 5] 6 [] (by decide) (by decide)
    (by decide)⟩

/-- C14 (maximum over a sub-range): on a well-formed list whose live nodes are
`l1 ++ start :: (mid ++ end_ :: l2)`, under a comparator that is a total preorder
on the payloads of the range `start :: mid`, `get_max_from_part_of_list`
terminates and returns a node `M` of the range whose payload is not less than
any payload of the range; it is `start` whenever the payload of `start` is not
less than any payload of the range, and otherwise it lies after `start` and
every node of the range between `M` and `end_` compares strictly less than
`M`. -/
theorem get_max_from_part_of_list_spec (h : Heap) (head : Ptr) (xs : List Bytes) (cmp : Cmp)
    (fuel : Nat) (l1 : List Ptr) (start : Ptr) (mid : List Ptr) (end_ : Ptr) (l2 : List Ptr)
    (hwf : WellFormed h head (l1 ++ start :: (mid ++ end_ :: l2)) xs)
    (hord : TotalPreorderOn cmp (payloads h (start :: mid))) (hfuel : mid.length < fuel) :
    ∃ M, get_max_from_part_of_list fuel h start end_ cmp = some M ∧ M ∈ start :: mid ∧
      (∀ q ∈ start :: mid, 0 ≤ cmp (h.node M).data (h.node q).data) ∧
      ((∀ q ∈ start :: mid, 0 ≤ cmp (h.node start).data (h.node q).data) → M = start) ∧
      ((¬ ∀ q ∈ start :: mid, 0 ≤ cmp (h.node start).data (h.node q).data) →
        ∃ a b, mid = a ++ M :: b ∧ ∀ q ∈ b, cmp (h.node q).data (h.node M).data < 0) := by
  obtain ⟨hl, -, hs⟩ := hwf.1.range
  obtain ⟨k, rfl⟩ : ∃ k, fuel = mid.length + k + 1 := ⟨fuel - mid.length - 1, by omega⟩
  obtain ⟨hanti, htrans⟩ := hord.nodes
  have hge : ∀ a ∈ start :: mid, ∀ b ∈ start :: mid,
      (0 ≤ cmp (h.node a).data (h.node b).data ↔ cmp (h.node b).data (h.node a).data ≤ 0) := by
    intro a ha b hb
    have := hanti a ha b hb
    have := hanti b hb a ha
    omega
  have hmem : ∀ q, q ∈ [] ++ start :: [] ++ mid.reverse ↔ q ∈ start :: mid := by
    intro q; simp
  obtain ⟨w1, w2, e, hle, hlt⟩ := scan_best_spec
    (fun c m => -cmp (h.node c).data (h.node m).data) mid.reverse [] [] start
    (by
      intro a ha b hb
      have := hanti b ((hmem b).1 hb) a ((hmem a).1 ha)
      dsimp only
      constructor <;> intro hx <;> omega)
    (by
      intro a ha b hb c hc hab hbc
      dsimp only at hab hbc ⊢
      have h1 := (hge a ((hmem a).1 ha) b ((hmem b).1 hb)).1 (by omega)
      have h2 := (hge b ((hmem b).1 hb) c ((hmem c).1 hc)).1 (by omega)
      have h3 := htrans c ((hmem c).1 hc) b ((hmem b).1 hb) a ((hmem a).1 ha) h2 h1
      have := (hge a ((hmem a).1 ha) c ((hmem c).1 hc)).2 h3
      omega)
    (by
      intro q hq
      simp only [List.nil_append, List.mem_singleton] at hq
      subst hq
      have := hanti q (by simp) q (by simp)
      dsimp only
      omega)
    (by simp)
  have hrun := get_max_loop_linked h start cmp mid end_ hl hs start k
  rw [scan_best_max_eq] at hrun
  simp only [List.nil_append, List.singleton_append] at e
  have hM : scan_best (fun c m => decide (-cmp (h.node c).data (h.node m).data < 0)) start
      mid.reverse ∈ start :: mid := by
    rw [← hmem]
    simp only [List.nil_append, List.singleton_append]
    rw [e]; simp
  refine ⟨_, hrun, hM, ?_, ?_, ?_⟩
  · intro q hq
    have := hle q ((hmem q).2 hq)
    omega
  · intro hall
    cases w1 with
    | nil =>
      simp only [List.nil_append, List.cons.injEq] at e
      exact e.1.symm
    | cons w w1 =>
      simp only [List.cons_append, List.cons.injEq] at e
      have h1 := hlt w (by simp)
      rw [← e.1] at h1
      have h2 := hall _ hM
      omega
  · intro hnot
    cases w1 with
    | nil =>
      simp only [List.nil_append, List.cons.injEq] at e
      exfalso
      apply hnot
      intro q hq
      have := hle q ((hmem q).2 hq)
      rw [← e.1] at this
      omega
    | cons w w1 =>
      simp only [List.cons_append, List.cons.injEq] at e
      refine ⟨w2.reverse, w1.reverse, ?_, ?_⟩
      · have := congrArg List.reverse e.2
        simpa using this
      · intro q hq
        have := hlt q (List.mem_cons_of_mem _ (List.mem_reverse.1 hq))
        omega

/-- C14, at a concrete input: on the list holding 1, 5, 5, 2, 9 the maximum
of the range from the first node up to the last one is the second node that
holds 5, the one nearest to the end of the range. -/
theorem get_max_from_part_of_list_spec_witness :
    get_max_from_part_of_list 4
      (push_all 1 (create_empty_list Heap.init true).2 [[1], [5], [5], [2], [9]]).2 2 6
      cmp_byte = some 4 ∧
    ∃ M, get_max_from_part_of_list 4
        (push_all 1 (create_empty_list Heap.init true).2 [[1], [5], [5], [2], [9]]).2 2 6
        cmp_byte = some M ∧ M ∈ [2, 3, 4, 5] :=
  have hc := get_max_from_part_of_list_spec
    (push_all 1 (create_empty_list Heap.init true).2 [[1], [5], [5], [2], [9]]).2 1
    [[1], [5], [5], [2], [9]] cmp_byte 4 [] 2 [3, 4, 5] 6 [] (by decide) (by decide)
    (by decide)
  ⟨by decide, hc.elim fun M hM => ⟨M, hM.1, hM.2.1⟩⟩

/-- C15 (destroy by identity): on a well-formed list with live nodes `ps`,
`free_from_list` terminates and returns the head exactly when `n` is a live
node, and null otherwise.  When `n` is live the destructor is called exactly
once, on the payload of `n`, and the list is left with the links that
`remove_from_list` leaves: well formed with live nodes `ps.erase n`.  When `n`
is not live the destructor is not called and the heap is unchanged. -/
theorem free_from_list_by_identity (h : Heap) (head : Ptr) (ps : List Ptr) (xs : List Bytes)
    (n : Ptr) (fuel : Nat) (hwf : WellFormed h head ps xs) (hfuel : ps.length < fuel) :
    ∃ r h1 calls, free_from_list fuel h head n = some (r, h1, calls) ∧
      (r = head ↔ n ∈ ps) ∧
      (n ∉ ps → r = NULL ∧ calls = [] ∧ h1 = h) ∧
      (n ∈ ps → calls = [(n, (h.node n).data)] ∧
        WellFormed h1 head (ps.erase n) (xs.eraseIdx (ps.indexOf n)) ∧
        ∃ h2, remove_from_list fuel h head n = some (n, h2) ∧
          (∀ q, (h1.node q).next = (h2.node q).next ∧ (h1.node q).prev = (h2.node q).prev) ∧
          forward fuel h1 head = forward fuel h2 head) := by
  have hhead : head ≠ NULL := (hwf.1.2.1 head (by simp)).1
  by_cases hn : n ∈ ps
  · obtain ⟨h2, e1, hw2⟩ := remove_from_list_mem h head n ps xs fuel hwf hn hfuel
    have hnn : n ≠ NULL := (hwf.1.2.1 n (List.mem_cons_of_mem _ hn)).1
    have hnd : ps.Nodup := (List.nodup_cons.1 hwf.1.1).2
    have hoff : n ∉ head :: ps.erase n := by
      simp only [List.mem_cons, not_or]
      exact ⟨fun e => hwf.1.head_not_mem (e ▸ hn), hnd.not_mem_erase⟩
    have hw1 := hw2.setData_off n none hoff
    have hle : (ps.erase n).length < fuel :=
      lt_of_le_of_lt (List.erase_sublist n ps).length_le hfuel
    refine ⟨head, h2.setData n none, [(n, (h.node n).data)], ?_, ⟨fun _ => hn, fun _ => rfl⟩,
      fun hc => absurd hn hc, fun _ => ⟨rfl, hw1, h2, e1, fun q => by simp, ?_⟩⟩
    · simp only [free_from_list, e1, if_neg hnn, free]
      rw [(remove_loop_payload h head n fuel _ _ e1 n).1]
    · rw [hw1.1.forward_eq hle, hw2.1.forward_eq hle]
  · have e1 := remove_from_list_not_found h head n ps fuel hwf.1 hn hfuel
    refine ⟨NULL, h, [], ?_, ⟨fun hc => absurd hc.symm hhead, fun hc => absurd hc hn⟩,
      fun _ => ⟨rfl, rfl, rfl⟩, fun hc => absurd hc hn⟩
    simp [free_from_list, e1]

/-- C15, at a concrete input: destroying the middle node of the list holding
1, 2, 3 returns the head, calls the destructor once on the payload 2 and
leaves the nodes holding 1 and 3. -/
theorem free_from_list_by_identity_witness :
    ((free_from_list 4 (push_all 1 (create_empty_list Heap.init true).2 [[1], [2], [3]]).2 1
        3).map fun r => r.1) = some 1 ∧
    ((free_from_list 4 (push_all 1 (create_empty_list Heap.init true).2 [[1], [2], [3]]).2 1
        3).map fun r => r.2.2) = some [(3, some [2])] ∧
    ((free_from_list 4 (push_all 1 (create_empty_list Heap.init true).2 [[1], [2], [3]]).2 1
        3).map fun r => forward 4 r.2.1 1) = some (some [2, 4]) ∧
    ∃ r h1 calls, free_from_list 4
        (push_all 1 (create_empty_list Heap.init true).2 [[1], [2], [3]]).2 1 3 =
        some (r, h1, calls) ∧ (r = 1 ↔ 3 ∈ [2, 3, 4]) :=
  have hc := free_from_list_by_identity
    (push_all 1 (create_empty_list Heap.init true).2 [[1], [2], [3]]).2 1 [2, 3, 4]
    [[1], [2], [3]] 3 4 (by decide) (by decide)
  ⟨by decide, by decide, by decide, hc.elim fun r hr => hr.elim fun h1 hh =>
    hh.elim fun calls hcalls => ⟨r, h1, calls, hcalls.1, hcalls.2.1⟩⟩

/-- C16 (destroy the whole list): on a well-formed list with `k` live nodes
`ps`, `free_list` terminates and calls the destructor exactly `k` times: once
on the payload of each live node, in the reverse of the forward traversal
order, and never on the sentinel. -/
theorem free_list_destructor_calls (h : Heap) (head : Ptr) (ps : List Ptr) (xs : List Bytes)
    (fuel : Nat) (hwf : WellFormed h head ps xs) (hfuel : ps.length < fuel) :
    ∃ h1 calls, free_list fuel h head = some (h1, calls) ∧
      calls = ps.reverse.map (fun p => (p, (h.node p).data)) ∧
      calls.length = ps.length ∧
      calls.map Prod.snd = xs.reverse.map some ∧
      (∀ p ∈ ps, (calls.map Prod.fst).count p = 1) ∧
      head ∉ calls.map Prod.fst := by
  obtain ⟨k, rfl⟩ : ∃ k, fuel = ps.length + k + 1 := ⟨fuel - ps.length - 1, by omega⟩
  have hrun := free_list_loop_linked h head ps head hwf.1.2.2 hwf.1.head_not_mem k
  have hfst : (ps.reverse.map fun p => (p, (h.node p).data)).map Prod.fst = ps.reverse := by
    simp [List.map_map, Function.comp_def]
  have hnd : ps.Nodup := (List.nodup_cons.1 hwf.1.1).2
  refine ⟨free ((h.setPrev head NULL).setNext head NULL) head, _,
    by simp only [free_list, hrun], rfl, by simp, ?_, ?_, ?_⟩
  · have hp := hwf.2.2.2
    unfold payloads at hp
    rw [List.map_map]
    simp only [List.map_reverse]
    rw [← hp]
    simp [Function.comp_def]
  · intro p hp
    rw [hfst]
    exact List.count_eq_one_of_mem (List.nodup_reverse.2 hnd) (List.mem_reverse.2 hp)
  · rw [hfst, List.mem_reverse]
    exact hwf.1.head_not_mem

/-- C16, at a concrete input: destroying the list holding 10, 20, 30 calls the
destructor on 30, 20, 10 in that order. -/
theorem free_list_destructor_calls_witness :
    (free_list 4 (push_all 1 (create_empty_list Heap.init true).2
        [[10], [20], [30]]).2 1).map (fun r => r.2) =
      some [(4, some [30]), (3, some [20]), (2, some [10])] ∧
    ∃ h1 calls, free_list 4
        (push_all 1 (create_empty_list Heap.init true).2 [[10], [20], [30]]).2 1 =
        some (h1, calls) ∧ calls.length = 3 :=
  have hc := free_list_destructor_calls
    (push_all 1 (create_empty_list Heap.init true).2 [[10], [20], [30]]).2 1 [2, 3, 4]
    [[10], [20], [30]] 4 (by decide) (by decide)
  ⟨by decide, hc.elim fun h1 hh => hh.elim fun calls hcalls =>
    ⟨h1, calls, hcalls.1, hcalls.2.2.1⟩⟩

/-- C17 (as stated, refuted): on the empty list made by `create_empty_list`,
`get_min_from_list` and `get_max_from_list` with the numeric comparator return
the head `1`, which is not the null pointer. -/
theorem get_min_max_from_list_empty_not_null :
    WellFormed (create_empty_list Heap.init true).2 1 [] [] ∧
      get_min_from_list 4 (create_empty_list Heap.init true).2 1 cmp_byte = some 1 ∧
      get_max_from_list 4 (create_empty_list Heap.init true).2 1 cmp_byte = some 1 ∧
      get_min_from_list 4 (create_empty_list Heap.init true).2 1 cmp_byte ≠ some NULL ∧
      get_max_from_list 4 (create_empty_list Heap.init true).2 1 cmp_byte ≠ some NULL := by
  decide

/-- C17 (amended): on a well-formed list without live nodes, for every
comparator, `get_min_from_list` and `get_max_from_list` terminate and return
the sentinel head itself, which is not null. -/
theorem get_min_max_from_list_empty (h : Heap) (head : Ptr) (cmp : Cmp) (fuel : Nat)
    (hwf : WellFormed h head [] []) (hfuel : 0 < fuel) :
    get_min_from_list fuel h head cmp = some head ∧
      get_max_from_list fuel h head cmp = some head ∧ head ≠ NULL := by
  obtain ⟨k, rfl⟩ : ∃ k, fuel = k + 1 := ⟨fuel - 1, by omega⟩
  have hl := hwf.1.2.2
  simp only [linked] at hl
  refine ⟨?_, ?_, (hwf.1.2.1 head (by simp)).1⟩
  · simp [get_min_from_list, get_min_from_part_of_list, get_min_loop, hl.1, hl.2]
  · simp [get_max_from_list, get_max_from_part_of_list, get_max_loop, hl.1, hl.2]

/-- C17 (amended), at a concrete input: the empty list on the initial heap. -/
theorem get_min_max_from_list_empty_witness :
    get_min_from_list 1 (create_empty_list Heap.init true).2 1 cmp_null_low = some 1 ∧
      get_max_from_list 1 (create_empty_list Heap.init true).2 1 cmp_null_low = some 1 ∧
      (1 : Ptr) ≠ NULL :=
  get_min_max_from_list_empty (create_empty_list Heap.init true).2 1 cmp_null_low 1
    (by decide) (by decide)

/-- C18 (comparator safety, violated): on the well-formed list with the single
live node `2` holding 7, the results of `get_min_from_list` and
`get_max_from_list` depend on what the comparator answers for the null
payload of the sentinel: two comparators that agree with the numeric
comparator on every pair of buffers make the functions return the sentinel
`1` instead of node `2`.  So the comparator is applied to the sentinel's
payload. -/
theorem get_min_max_compare_sentinel :
    WellFormed (push_all 1 (create_empty_list Heap.init true).2 [[7]]).2 1 [2] [[7]] ∧
      (∀ a b : Bytes, cmp_null_low (some a) (some b) = cmp_byte (some a) (some b)) ∧
      (∀ a b : Bytes, cmp_null_high (some a) (some b) = cmp_byte (some a) (some b)) ∧
      get_min_from_list 4 (push_all 1 (create_empty_list Heap.init true).2 [[7]]).2 1
        cmp_byte = some 2 ∧
      get_min_from_list 4 (push_all 1 (create_empty_list Heap.init true).2 [[7]]).2 1
        cmp_null_low = some 1 ∧
      get_max_from_list 4 (push_all 1 (create_empty_list Heap.init true).2 [[7]]).2 1
        cmp_byte = some 2 ∧
      get_max_from_list 4 (push_all 1 (create_empty_list Heap.init true).2 [[7]]).2 1
        cmp_null_high = some 1 := by
  refine ⟨by decide, fun a b => rfl, fun a b => rfl, by decide, by decide, by decide,
    by decide⟩

/-- C19 (frame of the sorted insert on `next` links): on a well-formed list
with live nodes `ps`, `insert_into_sorted_list` terminates, and it returns a
non-null node exactly when both allocations succeed.  The returned node
`adding` is then a new cell, and the `next` link of every other cell (the
sentinel and every pre-existing node) is unchanged.  The stopping point
`current` of the backward scan is the last of the head and the nodes `l`,
where `ps = l ++ r`, the payload compares less than every payload of `r`, and
`current` is the head or holds a payload that the new one is not less than.
The call writes `adding.next`, `adding.prev = current` and the `prev` link of
the successor of `current`, and no other `prev` link.  The forward traversal
from the head is the same as before the call, namely `ps`. -/
theorem insert_into_sorted_list_frame (h : Heap) (head : Ptr) (ps : List Ptr)
    (xs : List Bytes) (size : Nat) (x : Bytes) (cmp : Cmp) (node_ok buf_ok : Bool)
    (fuel : Nat) (hwf : WellFormed h head ps xs) (hfuel : ps.length < fuel) :
    ∃ adding h1,
      insert_into_sorted_list fuel h head size x cmp node_ok buf_ok = some (adding, h1) ∧
      (adding ≠ NULL ↔ node_ok = true ∧ buf_ok = true) ∧
      (adding ≠ NULL →
        adding ∉ head :: ps ∧
        (∀ q, q ≠ adding → (h1.node q).next = (h.node q).next) ∧
        (∃ current l r, ps = l ++ r ∧ (head :: l).getLast? = some current ∧
          (∀ q ∈ r, cmp (some x) (h.node q).data < 0) ∧
          (current = head ∨ ¬ cmp (some x) (h.node current).data < 0) ∧
          insert_scan h head (some x) cmp fuel (h.node head).prev = some current ∧
          (h1.node adding).next = (h.node current).next ∧
          (h1.node adding).prev = current ∧
          (h1.node (h.node current).next).prev = adding ∧
          ∀ q, q ≠ adding → q ≠ (h.node current).next →
            (h1.node q).prev = (h.node q).prev) ∧
        forward fuel h1 head = forward fuel h head ∧
        forward fuel h1 head = some ps) := by
  have hterm : ∃ r, insert_into_sorted_list fuel h head size x cmp node_ok buf_ok = some r ∧
      (node_ok = true ∧ buf_ok = true → r.1 ≠ NULL) := by
    cases node_ok
    · exact ⟨(NULL, h), by simp [insert_into_sorted_list, calloc], by simp⟩
    · cases buf_ok
      · refine ⟨(NULL, (calloc h true).2), ?_, by simp⟩
        simp only [insert_into_sorted_list, if_true, free]
        split <;> rfl
      · obtain ⟨h1, c, l, r, e, -⟩ :=
          insert_into_sorted_list_stop fuel h head ps xs size x cmp hwf hfuel
        exact ⟨_, e, fun _ => hwf.brk_ne⟩
  obtain ⟨⟨adding, h1⟩, hr, hflag⟩ := hterm
  refine ⟨adding, h1, hr, ⟨fun hok => insert_into_sorted_list_success fuel h head size x cmp
    node_ok buf_ok _ hr hok, hflag⟩, fun hok => ?_⟩
  obtain ⟨rfl, rfl⟩ := insert_into_sorted_list_success fuel h head size x cmp node_ok buf_ok
    _ hr hok
  obtain ⟨h2, c, l, r, e, e1, e2, e3, e4, e5, en, ep⟩ :=
    insert_into_sorted_list_stop fuel h head ps xs size x cmp hwf hfuel
  rw [hr, Option.some.injEq, Prod.mk.injEq] at e
  obtain ⟨rfl, rfl⟩ := e
  have hc : c ∈ head :: ps := by
    have := List.mem_of_getLast?_eq_some e2
    rw [e1]
    simp only [List.mem_cons, List.mem_append] at this ⊢
    tauto
  have hfresh : h.brk ∉ head :: ps := fun hm => hwf.1.ne_brk hm rfl
  have hnext : ∀ q, q ≠ h.brk → (h1.node q).next = (h.node q).next := fun q hq => by
    rw [en, if_neg hq]
  have hfw := hwf.1.forward_eq hfuel
  have hfw1 : forward fuel h1 head = some ps := by
    unfold forward at hfw ⊢
    rw [hnext head (fun e => hfresh (e ▸ List.mem_cons_self _ _))]
    exact walk_next_frame head h.brk hnext fuel _ ps hfw
      (fun hm => hfresh (List.mem_cons_of_mem _ hm))
  refine ⟨hfresh, hnext, ⟨c, l, r, e1, e2, e3, e4, e5, by simp [en], ?_, by simp [ep], ?_⟩,
    by rw [hfw1, hfw], hfw1⟩
  · rw [ep, if_neg, if_pos rfl]
    intro e6
    exact hwf.1.ne_brk (hwf.1.next_mem hc) e6.symm
  · intro q hq1 hq2
    rw [ep, if_neg hq2, if_neg hq1]

/-- C19, at a concrete input: inserting 2 into the list holding 1, 3 (nodes
`2`, `3`) succeeds and returns the new node `4`; the scan stops at node `2`,
the new node gets `prev = 2` and `next = 3`, node `3` gets `prev = 4`, and
the forward traversal is still `2, 3`. -/
theorem insert_into_sorted_list_frame_witness :
    ((insert_into_sorted_list 3 (push_all 1 (create_empty_list Heap.init true).2
        [[1], [3]]).2 1 1 [2] cmp_byte true true).map fun r =>
        (r.1, (r.2.node 4).prev, (r.2.node 4).next, (r.2.node 3).prev, (r.2.node 2).next)) =
      some (4, 2, 3, 4, 3) ∧
    ∃ adding h1,
      insert_into_sorted_list 3 (push_all 1 (create_empty_list Heap.init true).2
        [[1], [3]]).2 1 1 [2] cmp_byte true true = some (adding, h1) ∧
      adding ≠ NULL ∧
      (∀ q, q ≠ adding → (h1.node q).next =
        ((push_all 1 (create_empty_list Heap.init true).2 [[1], [3]]).2.node q).next) ∧
      insert_scan (push_all 1 (create_empty_list Heap.init true).2 [[1], [3]]).2 1 (some [2])
        cmp_byte 3 ((push_all 1 (create_empty_list Heap.init true).2 [[1], [3]]).2.node 1).prev =
        some 2 ∧
      forward 3 h1 1 = some [2, 3] :=
  have hc := insert_into_sorted_list_frame
    (push_all 1 (create_empty_list Heap.init true).2 [[1], [3]]).2 1 [2, 3] [[1], [3]] 1 [2]
    cmp_byte true true 3 (by decide) (by decide)
  ⟨by decide, hc.elim fun adding ha => ha.elim fun h1 hh =>
    have hok : adding ≠ NULL := hh.2.1.2 ⟨rfl, rfl⟩
    ⟨adding, h1, hh.1, hok, (hh.2.2 hok).2.1, by decide, (hh.2.2 hok).2.2.2.2⟩⟩

end CList
